import Mathlib

/-
  Verification development for the tla-web TLA+ interpreter (src/js/eval.js).

  We shallowly embed the value model, evaluation contexts and the expression
  evaluator of eval.js in Lean.  JavaScript objects become association lists,
  thrown JS exceptions become an explicit error monad, and the in-place
  mutation of a shared `Context` object (the evaluator passes the same context
  object to sub-evaluations, and `evalUnchanged` reassigns `ctx.state` on it)
  is made explicit by threading the "current object state" of the input
  context through every evaluation call.

  The `hashSum` fingerprints of the source are modelled by an injective
  string encoding with the same structure (raw strings for StringValue,
  element-fingerprint sorting for sets, sorted pair hashes for functions),
  so that fingerprint equality in the model coincides with fingerprint
  equality of the source up to hash collisions.
-/

set_option maxRecDepth 10000

/-- The apostrophe character used for primed variable names (`x` primed is
the key `x` followed by this character, as in the JS source). -/
def primeChar : Char := Char.ofNat 39

/-- One-character string holding `primeChar`. -/
def primeStr : String := String.singleton primeChar

/-- JS `s.endsWith(single-quote)` specialised to the prime character. -/
def endsWithPrime (s : String) : Bool := s.data.getLast? == some primeChar

/-- JS `s.slice(0, s.length - 1)`: drop the last character. -/
def dropLastChar (s : String) : String := String.mk s.data.dropLast

/-- Lexicographic strict comparison of char lists by code point (the
comparison JS applies to strings). -/
def charsLt : List Char → List Char → Bool
  | [], [] => false
  | [], _ :: _ => true
  | _ :: _, [] => false
  | a :: as, b :: bs =>
    if a.toNat < b.toNat then true
    else if b.toNat < a.toNat then false
    else charsLt as bs

/-- JS string `<`. -/
def strLtB (a b : String) : Bool := charsLt a.data b.data

/-- JS string `<=` (total preorder used for sorting). -/
def strLeB (a b : String) : Bool := !(strLtB b a)

/-- Insert into a sorted list, after any element with a `<=`-smaller-or-equal
key, giving a stable insertion sort. -/
def insertSortedStr (x : String) : List String → List String
  | [] => [x]
  | y :: ys => if strLeB y x then y :: insertSortedStr x ys else x :: y :: ys

/-- Stable ascending sort of strings, modelling JS `Array.prototype.sort()`
on the (string) fingerprints. -/
def sortStr (l : List String) : List String := l.foldl (fun acc x => insertSortedStr x acc) []

/-- Stable insert for a generic strict comparator: skip elements strictly
smaller than `x`, insert before the first element not smaller. -/
def insertStableBy (lt : α → α → Bool) (x : α) : List α → List α
  | [] => [x]
  | y :: ys => if lt y x then y :: insertStableBy lt x ys else x :: y :: ys

/-- Stable sort by a strict comparator (insertion sort over `foldr`),
modelling lodash `_.sortBy` (which is stable). -/
def stableSortBy (lt : α → α → Bool) (l : List α) : List α :=
  l.foldr (fun x acc => insertStableBy lt x acc) []

/-- Stable insert for integers by `≤`. -/
def insertSortedInt (x : Int) : List Int → List Int
  | [] => [x]
  | y :: ys => if y ≤ x then y :: insertSortedInt x ys else x :: y :: ys

/-- Ascending sort of integers, modelling `_.sortBy` on JS numbers. -/
def sortInts (l : List Int) : List Int := l.foldl (fun acc x => insertSortedInt x acc) []

/--
  The TLA+ value universe of eval.js (the live class definitions around
  line 2150): IntValue, BoolValue, StringValue, SetValue, TupleValue and
  FcnRcdValue with its record flag.
-/
inductive TLAValue : Type where
  | IntValue (n : Int)
  | BoolValue (b : Bool)
  | StringValue (s : String)
  | SetValue (elems : List TLAValue)
  | TupleValue (elems : List TLAValue)
  | FcnRcdValue (domain : List TLAValue) (values : List TLAValue) (isRecord : Bool)

open TLAValue

/-- The `FcnRcdValue.fingerprint` combination step: hash each zipped
(domain fp, value fp) pair, sort the pair hashes, hash the list. -/
def fpvFcn (domFps valFps : List String) : String :=
  "h(" ++ String.intercalate ","
    (sortStr ((List.zip domFps valFps).map (fun p => "h(" ++ p.1 ++ "," ++ p.2 ++ ")"))) ++ ")"

mutual
/-- Model of `fingerprint()`.  `hashSum` applications are modelled by the
injective tagged encodings below; `StringValue.fingerprint` returns the raw
string exactly as in the source.  Sets sort the element fingerprints before
hashing, functions hash the sorted list of hashed (domain, value) pairs, and
tuples fingerprint as their `toFcnRcd()` image with domain 1..n. -/
def fpv : TLAValue → String
  | IntValue n => "i(" ++ toString n ++ ")"
  | BoolValue b => "b(" ++ toString b ++ ")"
  | StringValue s => s
  | SetValue elems => "h(" ++ String.intercalate "," (sortStr (fpvList elems)) ++ ")"
  | TupleValue elems =>
    fpvFcn ((List.range elems.length).map (fun i => "i(" ++ toString ((i : Int) + 1) ++ ")"))
      (fpvList elems)
  | FcnRcdValue domain values _ => fpvFcn (fpvList domain) (fpvList values)

/-- Fingerprints of a list of values. -/
def fpvList : List TLAValue → List String
  | [] => []
  | v :: vs => fpv v :: fpvList vs
end

/-- Worker for `uniqByFp`, carrying the fingerprints seen so far. -/
def uniqByFpGo (seen : List String) : List TLAValue → List TLAValue
  | [] => []
  | v :: vs => if seen.contains (fpv v) then uniqByFpGo seen vs else v :: uniqByFpGo (fpv v :: seen) vs

/-- `_.uniqBy(elems, e => e.fingerprint())`: keep the first occurrence of
each fingerprint. -/
def uniqByFp (elems : List TLAValue) : List TLAValue := uniqByFpGo [] elems

/-- `new SetValue(elems)`: duplicates are removed at construction by
fingerprint. -/
def newSetValue (elems : List TLAValue) : TLAValue := SetValue (uniqByFp elems)

/-- The record branch of `FcnRcdValue.toString` calls `.getVal()` on its
domain elements, which are strings for records; on composite values JS
`getVal` is not defined, which we model with an error marker string. -/
def recDomStr : TLAValue → String
  | IntValue n => toString n
  | BoolValue b => toString b
  | StringValue s => s
  | _ => "(TypeError)"

mutual
/-- Model of the JS `toString()` methods of the value classes (used by
`FcnRcdValue.toTuple`, which keys an object by stringified values). -/
def jsToString : TLAValue → String
  | IntValue n => toString n
  | BoolValue b => if b then "TRUE" else "FALSE"
  | StringValue s => "\"" ++ s ++ "\""
  | SetValue elems => "\x7b" ++ String.intercalate "," (jsToStringList elems) ++ "\x7d"
  | TupleValue elems => "<<" ++ String.intercalate "," (jsToStringList elems) ++ ">>"
  | FcnRcdValue domain values isRec =>
    if isRec then
      "[" ++ String.intercalate ", "
        ((List.zip (domain.map recDomStr) (jsToStringList values)).map
          (fun p => p.1 ++ " |-> " ++ p.2)) ++ "]"
    else
      "(" ++ String.intercalate " @@ "
        ((List.zip (jsToStringList domain) (jsToStringList values)).map
          (fun p => p.1 ++ " :> " ++ p.2)) ++ ")"

/-- `toString()` over a list of values. -/
def jsToStringList : List TLAValue → List String
  | [] => []
  | v :: vs => jsToString v :: jsToStringList vs
end

/-- `TupleValue.toFcnRcd()`: a tuple is a function with domain `1..n`. -/
def toFcnRcd (elems : List TLAValue) : TLAValue :=
  FcnRcdValue ((List.range elems.length).map (fun (i : Nat) => IntValue ((i : Int) + 1))) elems false

/--
  Errors of the JS runtime as observed by the evaluator: `typeErr` models a
  thrown `TypeError` (property access or call on `undefined`/`null`),
  `assertErr` a failed `assert(...)` (which throws `Error`), `thrownErr` a
  thrown string, and `fuelErr` marks exhaustion of the explicit recursion
  budget that the model uses in place of JS's unbounded recursion.
-/
inductive JsErr : Type where
  | typeErr
  | assertErr
  | thrownErr (msg : String)
  | fuelErr
  deriving DecidableEq, Repr

/-- A primitive JS value, as returned by the `getVal()` methods. -/
inductive JsPrim : Type where
  | jint (n : Int)
  | jbool (b : Bool)
  | jstr (s : String)
  deriving DecidableEq, Repr

/-- `v.getVal()`: defined on IntValue, BoolValue and StringValue; the other
classes have no `getVal` method, so the call throws a `TypeError`. -/
def getValJs : TLAValue → Except JsErr JsPrim
  | IntValue n => .ok (.jint n)
  | BoolValue b => .ok (.jbool b)
  | StringValue s => .ok (.jstr s)
  | _ => .error .typeErr

/-- `getVal()` on a possibly-`null` slot (calling a method on `null` throws
a `TypeError`). -/
def getValJsOpt : Option TLAValue → Except JsErr JsPrim
  | none => .error .typeErr
  | some v => getValJs v

/-- JS truthiness of a primitive. -/
def truthy : JsPrim → Bool
  | .jint n => n != 0
  | .jbool b => b
  | .jstr s => s != ""

/-- JS strict equality against the literal `false`. -/
def strictEqFalseJs : JsPrim → Bool
  | .jbool b => !b
  | _ => false

/-- `v.fingerprint()` on a possibly-`null` slot. -/
def fpOpt : Option TLAValue → Except JsErr String
  | none => .error .typeErr
  | some v => .ok (fpv v)

/-- The reverse index built by `FcnRcdValue.toTuple`: a JS object keyed by
`String(value)`, so a later duplicate stringification overwrites an earlier
one; lookup therefore finds the last zip pair with the given key. -/
def revIndexLookup (vals dom : List TLAValue) (v : TLAValue) : Option TLAValue :=
  ((List.zip vals dom).reverse.find? (fun p => jsToString p.1 == jsToString v)).map (·.2)

/-- The sort key `_.sortBy(vals, v => valsRevIndex[v])` compares: the keys
are `IntValue` objects, which JS's relational operators convert to strings,
so the comparison is the string comparison of their decimal renderings. -/
def toTupleKey (vals dom : List TLAValue) (v : TLAValue) : String :=
  match revIndexLookup vals dom v with
  | some (IntValue n) => toString n
  | some w => jsToString w
  | none => "undefined"

/--
  `FcnRcdValue.toTuple()`: requires an integral domain that sorts to
  `1..n`, then rebuilds the value sequence by sorting the range values by
  the (stringified) domain index recorded for their stringification in a
  reverse-index object.  Throws (a string) if the domain is not `1..n`.
-/
def toTupleJs (dom vals : List TLAValue) : Except JsErr TLAValue :=
  match dom.mapM (fun v => match v with | IntValue n => some n | _ => none) with
  | none => .error (.thrownErr "cannot convert record to tuple")
  | some domInts =>
    let expected := (List.range dom.length).map (fun (i : Nat) => (i : Int) + 1)
    if sortInts domInts = expected then
      .ok (TupleValue (stableSortBy
        (fun a b => strLtB (toTupleKey vals dom a) (toTupleKey vals dom b)) vals))
    else .error (.thrownErr "cannot convert record to tuple")

/-- `FcnRcdValue.toTuple` on an arbitrary value: tuples return themselves,
functions convert, any other class throws. -/
def toTupleVal : TLAValue → Except JsErr TLAValue
  | TupleValue es => .ok (TupleValue es)
  | FcnRcdValue dom vals _ => toTupleJs dom vals
  | _ => .error (.thrownErr "value cannot be converted to tuple")

/--
  A TLA+ state (the live `TLAState` class, line 2534): an ordered mapping
  from variable names to a value or `null` (unassigned), modelled as an
  association list in object-key order.
-/
structure TLAState : Type where
  stateVars : List (String × Option TLAValue)

/-- `state.hasVar(k)`: key membership. -/
def TLAState.hasVar (s : TLAState) (k : String) : Bool :=
  s.stateVars.any (fun p => p.1 == k)

/-- Raw property read `state.stateVars[k]`: `none` models JS `undefined`
(missing key), `some none` models an explicit `null`. -/
def TLAState.getVarRaw (s : TLAState) (k : String) : Option (Option TLAValue) :=
  (s.stateVars.find? (fun p => p.1 == k)).map (·.2)

/-- `state.getVarVal(k)` flattened: the assigned value, or `none` when the
slot is `null` (or the key absent — callers guard with `hasVar`). -/
def TLAState.getVarVal (s : TLAState) (k : String) : Option TLAValue :=
  match s.getVarRaw k with
  | some (some v) => some v
  | _ => none

/-- `state.withVarVal(k, v)`: rebuild the map, replacing the value at `k`
(a missing key is not added, exactly as `_.mapValues` behaves). -/
def TLAState.withVarVal (s : TLAState) (k : String) (v : Option TLAValue) : TLAState :=
  ⟨s.stateVars.map (fun p => if p.1 == k then (p.1, v) else p)⟩

/-- The `_.keys(state.stateVars).filter(k => stateVars[k] !== null)` idiom:
names of the currently assigned variables, in key order. -/
def assignedVarsList (s : TLAState) : List String :=
  (s.stateVars.filter (fun p => p.2.isSome)).map (·.1)

/-- `state.deprimeVars()`: keep only the primed entries and strip the
trailing prime from their keys. -/
def TLAState.deprimeVars (s : TLAState) : TLAState :=
  ⟨(s.stateVars.filter (fun p => endsWithPrime p.1)).map (fun p => (dropLastChar p.1, p.2))⟩

/-- `state.fingerprint()`: hash of the name/value-fingerprint sequence in
sorted key order; fingerprinting a `null` slot throws. -/
def TLAState.fingerprintS (s : TLAState) : Except JsErr String := do
  let sortedKeys := sortStr (s.stateVars.map (·.1))
  let parts ← sortedKeys.mapM (fun k => do
    let f ← fpOpt (s.getVarVal k)
    pure (k ++ "," ++ f))
  pure ("h(" ++ String.intercalate "," parts ++ ")")

/--
  Abstract syntax of the TLA+ expression subset relevant to the claims,
  mirroring the tree-sitter node kinds dispatched by `evalExpr`.
  `primeE` is the `bound_postfix_op` prime, `dots2E` is `a..b`,
  `conjListE`/`disjListE` are the vertically aligned junction lists, and
  `unchangedE` is the `UNCHANGED` prefix operator.
-/
inductive Expr : Type where
  | natE (n : Nat)
  | boolLitE (b : Bool)
  | identE (x : String)
  | primeE (e : Expr)
  | lnotE (e : Expr)
  | landE (l r : Expr)
  | lorE (l r : Expr)
  | impliesE (l r : Expr)
  | eqE (l r : Expr)
  | mulE (l r : Expr)
  | plusE (l r : Expr)
  | dots2E (l r : Expr)
  | conjListE (es : List Expr)
  | disjListE (es : List Expr)
  | existsE (v : String) (dom : Expr) (body : Expr)
  | forallE (v : String) (dom : Expr) (body : Expr)
  | chooseE (v : String) (dom : Expr) (body : Expr)
  | setLitE (es : List Expr)
  | tupLitE (es : List Expr)
  | unchangedE (arg : Expr)

/-- The source text of a node, as used by `evalEq` (`lhs.text`).  Only
identifier and primed-identifier texts are ever compared against variable
names; composite nodes render to a placeholder that cannot collide with a
declared variable name. -/
def Expr.text : Expr → String
  | .identE x => x
  | .primeE e => e.text ++ primeStr
  | .natE n => toString n
  | .boolLitE b => if b then "TRUE" else "FALSE"
  | _ => "(composite-expression)"

/--
  The evaluation `Context` (line 3249): result value (`null` initially),
  current state, global definitions, quantifier bindings, constants, the
  previous function value for `EXCEPT`, and the primed-scope flag.  The
  constructor, and hence `clone()` and every `with...` helper built on it,
  resets `primed` to `false`.
-/
structure Context : Type where
  val : Option TLAValue
  state : TLAState
  defns : List (String × Expr)
  quant_bound : List (String × TLAValue)
  constants : List (String × TLAValue)
  prev_func_val : Option TLAValue
  primed : Bool

/-- `ctx.clone()`: copies all fields, but the constructor re-initialises
`primed` to `false`. -/
def Context.clone (c : Context) : Context := { c with primed := false }

/-- `ctx.withVal(v)`. -/
def Context.withVal (c : Context) (v : Option TLAValue) : Context :=
  { c with val := v, primed := false }

/-- `ctx.withValAndState(v, st)`. -/
def Context.withValAndState (c : Context) (v : Option TLAValue) (st : TLAState) : Context :=
  { c with val := v, state := st, primed := false }

/-- `ctx.withState(st)`. -/
def Context.withState (c : Context) (st : TLAState) : Context :=
  { c with state := st, primed := false }

/-- JS object property write `obj[k] = v` on an association list: replace
the binding if the key exists, append otherwise. -/
def setAssoc (l : List (String × α)) (k : String) (v : α) : List (String × α) :=
  if l.any (fun p => p.1 == k) then l.map (fun p => if p.1 == k then (k, v) else p)
  else l ++ [(k, v)]

/-- `ctx.withBoundVar(name, val)`. -/
def Context.withBoundVar (c : Context) (name : String) (v : TLAValue) : Context :=
  { c with quant_bound := setAssoc c.quant_bound name v, primed := false }

/-- `ctx.withPrimed()`. -/
def Context.withPrimed (c : Context) : Context := { c with primed := true }

/--
  Result type of one evaluator call.  The first component models the JS
  return value: `none` is the `undefined` returned when `evalIdentifierRef`
  finds no binding, otherwise the list of branch contexts.  The second
  component is the state of the *caller's context object* after the call:
  the evaluator passes the same `Context` object into sub-evaluations, and
  `evalUnchanged` (and the `conj_list` value initialisation) mutate it in
  place, so the caller observes those writes.
-/
abbrev EvalM : Type := Except JsErr (Option (List Context) × Context)

/-- Use of `evalExpr(...)` expecting an array (e.g. calling `.map`/`.concat`
 / reading `.length` on it): `undefined` raises a `TypeError`. -/
def asCtxList : Option (List Context) → Except JsErr (List Context)
  | none => .error .typeErr
  | some l => .ok l

/-- The ubiquitous `evalExpr(...)[0]["val"]` idiom: indexing `undefined` or
an empty array and reading `val` from the resulting `undefined` throws. -/
def firstContextVal : Option (List Context) → Except JsErr (Option TLAValue)
  | none => .error .typeErr
  | some [] => .error .typeErr
  | some (c :: _) => .ok c.val

/-- `isPrimedVar(treeNode, ctx)` (line 3451): a `bound_postfix_op` whose
operand is an identifier naming a state variable that currently has a
(non-`null`) value. -/
def isPrimedVar (e : Expr) (ctx : Context) : Bool :=
  match e with
  | .primeE (.identE x) => ctx.state.hasVar x && (ctx.state.getVarVal x).isSome
  | _ => false

/-- `BoolValue.and(other)`: JS evaluates `this.getVal() && other.getVal()`;
a falsy receiver short-circuits without touching `other`.  (When the
receiver is `true`, JS wraps `other.getVal()` itself; for the boolean
payloads produced by the evaluator this is the boolean conjunction
modelled here.) -/
def jsAnd (a b : Option TLAValue) : Except JsErr TLAValue :=
  match a with
  | some (BoolValue false) => .ok (BoolValue false)
  | some (BoolValue true) => do
    let p ← getValJsOpt b
    .ok (BoolValue (truthy p))
  | _ => .error .typeErr

/--
  `processDisjunctiveContexts(ctx, retCtxs, currAssignedVars)` (line 3394):
  when a disjunctive split produced more than one context, assert all
  branch values are booleans; if some branch has strictly more assigned
  state variables than `currAssignedVars`, return the branches unchanged,
  otherwise collapse to a single context holding the disjunction of the
  branch values.
-/
def processDisjunctiveContexts (ctx : Context) (retCtxs : List Context)
    (currAssignedVars : List String) : Except JsErr (List Context) :=
  if retCtxs.length > 1 then
    if retCtxs.all (fun c => match c.val with | some (BoolValue _) => true | _ => false) then
      let assignedInSub :=
        retCtxs.any (fun c => (assignedVarsList c.state).length > currAssignedVars.length)
      if assignedInSub then .ok retCtxs
      else
        let someTrue := retCtxs.any (fun c => match c.val with
          | some (BoolValue b) => b
          | _ => false)
        .ok [ctx.withVal (some (BoolValue someTrue))]
    else .error .assertErr
  else .ok retCtxs

/-- The defn-substitution loop at the head of `evalUnchanged`: while the
argument is an identifier with a definition, replace it by the definition
body.  The JS loop does not terminate on cyclic definitions; the model
charges one unit of budget per substitution. -/
def resolveUnchangedArg (defns : List (String × Expr)) : Nat → Expr → Option Expr
  | 0, e =>
    match e with
    | .identE x => if (defns.lookup x).isSome then none else some e
    | _ => some e
  | n + 1, e =>
    match e with
    | .identE x =>
      match defns.lookup x with
      | some b => resolveUnchangedArg defns n b
      | none => some e
    | _ => some e

/-- `evalLnot` (line 3367): negate `evalExpr(v, ctx)[0]["val"].getVal()`;
extra branch contexts of the operand are not consulted. -/
def evalLnot (ev : Expr → Context → EvalM) (v : Expr) (ctx : Context) : EvalM := do
  let (ropt, ctx1) ← ev v ctx
  let lval ← firstContextVal ropt
  let p ← getValJsOpt lval
  .ok (some [ctx1.withVal (some (BoolValue (!truthy p)))], ctx1)

/-- `evalLand` (line 3375): evaluate the left side, then the right side once
per left branch context, conjoining values; `_.flattenDeep(undefined)` is
`[]`, so an undefined left result silently yields no branches. -/
def evalLand (ev : Expr → Context → EvalM) (lhs rhs : Expr) (ctx : Context) : EvalM := do
  let (lopt, ctx1) ← ev lhs ctx
  let lhsEval := match lopt with | none => [] | some l => l
  let branchLists ← lhsEval.mapM (fun lctx => do
    let (ropt, lctx2) ← ev rhs lctx
    let rl ← asCtxList ropt
    rl.mapM (fun actx => do
      let v ← jsAnd lctx2.val actx.val
      pure (actx.withValAndState (some v) actx.state)))
  .ok (some branchLists.flatten, ctx1)

/-- `evalLor` (line 3430): evaluate both operands from the same context
object (so in-place mutations by the left operand are seen by the right),
then merge through `processDisjunctiveContexts`. -/
def evalLor (ev : Expr → Context → EvalM) (lhs rhs : Expr) (ctx : Context) : EvalM := do
  let currAssignedVars := assignedVarsList ctx.state
  let (lopt, ctx1) ← ev lhs ctx
  let ctxLhs ← asCtxList lopt
  let (ropt, ctx2) ← ev rhs ctx1
  let ctxRhs ← asCtxList ropt
  let ret ← processDisjunctiveContexts ctx2 (ctxLhs ++ ctxRhs) currAssignedVars
  .ok (some ret, ctx2)

/-- `a => b` (line 3694): both operands are evaluated eagerly and only the
first branch of each is read; `!a.getVal() || b.getVal()` short-circuits the
`getVal` call on `b` when `a` is falsy. -/
def evalImplies (ev : Expr → Context → EvalM) (lhs rhs : Expr) (ctx : Context) : EvalM := do
  let (lopt, ctx1) ← ev lhs ctx
  let av ← firstContextVal lopt
  let (ropt, ctx2) ← ev rhs ctx1
  let bv ← firstContextVal ropt
  let pa ← getValJsOpt av
  let res ← if truthy pa then do
      let pb ← getValJsOpt bv
      pure (BoolValue (truthy pb))
    else pure (BoolValue true)
  .ok (some [ctx2.withVal (some res)], ctx2)

/--
  `evalEq` (line 3465): assignment-or-comparison.  If the left side is a
  primed variable (or an unprimed one while unprimed assignment is allowed,
  i.e. `!ASSIGN_PRIMED`): compare by fingerprint when the variable already
  has a value, otherwise bind it to the single right-hand-side result (the
  right side is evaluated against `ctx.clone()`, and `_.mapValues` only
  rewrites an existing key).  Otherwise evaluate both sides against clones
  and compare fingerprints.
-/
def evalEq (ev : Expr → Context → EvalM) (ap : Bool) (lhs rhs : Expr) (ctx : Context) : EvalM := do
  let identName := lhs.text
  let isUnprimed := ctx.state.hasVar identName && !(isPrimedVar lhs ctx)
  if isPrimedVar lhs ctx || (isUnprimed && !ap) then
    if ctx.state.hasVar identName && (ctx.state.getVarVal identName).isSome then
      let (ropt, ctx1) ← ev rhs ctx
      let rl ← asCtxList ropt
      match rl with
      | [rc] => do
        let (lopt, ctx2) ← ev lhs ctx1
        let lhsVal ← firstContextVal lopt
        let lfp ← fpOpt lhsVal
        let rfp ← fpOpt rc.val
        .ok (some [ctx2.withVal (some (BoolValue (lfp == rfp)))], ctx2)
      | _ => .error .assertErr
    else if ctx.state.hasVar identName then do
      let (ropt, _) ← ev rhs ctx.clone
      let rl ← asCtxList ropt
      match rl with
      | [rc] =>
        .ok (some [ctx.withValAndState (some (BoolValue true))
              (ctx.state.withVarVal identName rc.val)], ctx)
      | _ => .error .assertErr
    else
      -- `_.mapValues` never visits the absent key: nothing is assigned and
      -- the right-hand side is never evaluated.
      .ok (some [ctx.withValAndState (some (BoolValue true)) ctx.state], ctx)
  else do
    let (lopt, _) ← ev lhs ctx.clone
    let ll ← asCtxList lopt
    match ll with
    | [lc] => do
      let (ropt, _) ← ev rhs ctx.clone
      let rl ← asCtxList ropt
      match rl with
      | [rc] => do
        let lfp ← fpOpt lc.val
        let rfp ← fpOpt rc.val
        .ok (some [ctx.withVal (some (BoolValue (lfp == rfp)))], ctx)
      | _ => .error .assertErr
    | _ => .error .assertErr

/-- The per-element loop of `evalUnchanged`'s tuple branch: each identifier
is evaluated and its primed twin assigned by writing `ctx.state` on the
shared context object. -/
def evalUnchangedTup (ev : Expr → Context → EvalM) :
    List Expr → Context → Except JsErr Context
  | [], ctx => .ok ctx
  | e :: rest, ctx => do
    let (ropt, ctx1) ← ev e ctx
    let uval ← firstContextVal ropt
    evalUnchangedTup ev rest { ctx1 with state := ctx1.state.withVarVal (e.text ++ primeStr) uval }

/-- `evalUnchanged` (line 3534): resolve definition references, then bind
the primed version of each identifier to the unprimed value — note that the
binding happens by assigning `ctx.state` on the caller's context object. -/
def evalUnchanged (ev : Expr → Context → EvalM) (budget : Nat) (arg : Expr)
    (ctx : Context) : EvalM := do
  match resolveUnchangedArg ctx.defns budget arg with
  | none => .error .fuelErr
  | some uv =>
    match uv with
    | .tupLitE elems =>
      let tupleElems := elems.filter (fun e => match e with | .identE _ => true | _ => false)
      let ctxF ← evalUnchangedTup ev tupleElems ctx
      .ok (some [ctxF.withVal (some (BoolValue true))], ctxF)
    | .identE x => do
      let (ropt, ctx1) ← ev (.identE x) ctx
      let uval ← firstContextVal ropt
      let ctx2 := { ctx1 with state := ctx1.state.withVarVal (x ++ primeStr) uval }
      .ok (some [ctx2.withVal (some (BoolValue true))], ctx2)
    | _ => .error .assertErr

/-- `evalIdentifierRef` (line 3984): resolve a name as state variable
(respecting the primed flag), quantifier binding, definition (whose body is
then evaluated), or constant; with no binding found the JS function falls
off its end and returns `undefined`, modelled by `(none, ctx)`. -/
def evalIdentifierRef (ev : Expr → Context → EvalM) (x : String) (ctx : Context) : EvalM :=
  if ctx.state.hasVar x && !ctx.primed then
    .ok (some [ctx.withVal (ctx.state.getVarVal x)], ctx)
  else if ctx.state.hasVar (x ++ primeStr) && ctx.primed then
    .ok (some [ctx.withVal (ctx.state.getVarVal (x ++ primeStr))], ctx)
  else
    match ctx.quant_bound.lookup x with
    | some bv => .ok (some [ctx.withVal (some bv)], ctx)
    | none =>
      match ctx.defns.lookup x with
      | some body => ev body ctx
      | none =>
        match ctx.constants.lookup x with
        | some cv => .ok (some [ctx.withVal (some cv)], ctx)
        | none => .ok (none, ctx)

/-- The per-domain-element branch collection of a bounded quantifier: each
element is bound in a clone of the context, so body evaluations cannot
mutate the caller's context. -/
def evalQuantBranches (ev : Expr → Context → EvalM) (v : String) (body : Expr)
    (ctx1 : Context) : List TLAValue → Except JsErr (List Context)
  | [] => .ok []
  | dv :: rest => do
    let boundContext := { ctx1.clone with quant_bound := setAssoc ctx1.clone.quant_bound v dv }
    let (ropt, _) ← ev body boundContext.clone
    let l ← asCtxList ropt
    let ls ← evalQuantBranches ev v body ctx1 rest
    .ok (l ++ ls)

/-- `evalBoundedQuantification` (line 4043): evaluate the domain (asserted
to be a set); an empty domain yields `TRUE`/`FALSE` immediately; `\A` takes
the conjunction of branch values without forking; `\E` merges through
`processDisjunctiveContexts`. -/
def evalBoundedQuantification (ev : Expr → Context → EvalM) (isForall : Bool)
    (v : String) (dom body : Expr) (ctx : Context) : EvalM := do
  let (dopt, ctx1) ← ev dom ctx
  let dval ← firstContextVal dopt
  match dval with
  | some (SetValue elems) =>
    if elems.isEmpty then .ok (some [ctx1.withVal (some (BoolValue isForall))], ctx1)
    else do
      let currAssignedVars := assignedVarsList ctx1.state
      let retCtxs ← evalQuantBranches ev v body ctx1 elems
      if isForall then do
        let ps ← retCtxs.mapM (fun c => getValJsOpt c.val)
        .ok (some [ctx1.withVal (some (BoolValue (ps.all truthy)))], ctx1)
      else do
        let ret ← processDisjunctiveContexts ctx1 retCtxs currAssignedVars
        .ok (some ret, ctx1)
  | _ => .error .assertErr

/-- The search loop of `evalChoose`: first element of the stored element
order whose condition evaluates truthy; throws the literal string of the
source when none qualifies. -/
def chooseLoop (ev : Expr → Context → EvalM) (v : String) (body : Expr)
    (ctx1 : Context) : List TLAValue → EvalM
  | [] => .error (.thrownErr "No value satisfying CHOOSE predicate")
  | dv :: rest => do
    let boundCtx := ctx1.withBoundVar v dv
    let (ropt, _) ← ev body boundCtx
    let cv ← firstContextVal ropt
    let p ← getValJsOpt cv
    if truthy p then .ok (some [ctx1.withVal (some dv)], ctx1)
    else chooseLoop ev v body ctx1 rest

/-- `evalChoose` (line 4424): iterate `domainVal.getElems()` — the stored
element order of the set — and return the first element satisfying the
condition.  (`getElems` exists on sets and tuples only.) -/
def evalChoose (ev : Expr → Context → EvalM) (v : String) (dom body : Expr)
    (ctx : Context) : EvalM := do
  let (dopt, ctx1) ← ev dom ctx
  let dval ← firstContextVal dopt
  match dval with
  | some (SetValue elems) => chooseLoop ev v body ctx1 elems
  | some (TupleValue elems) => chooseLoop ev v body ctx1 elems
  | _ => .error .typeErr

/-- The short-circuiting per-context step of `evalConjList`: a context whose
value is strictly `false` is kept untouched, otherwise the conjunct is
evaluated against it and each branch value is conjoined with the previous
value. -/
def evalConjStep (ev : Expr → Context → EvalM) (conj : Expr) (cprev : Context) :
    Except JsErr (List Context × Context) := do
  let p ← getValJsOpt cprev.val
  if strictEqFalseJs p then .ok ([cprev], cprev)
  else
    let (ropt, cprev2) ← ev conj cprev
    let rl ← asCtxList ropt
    let branches ← rl.mapM (fun ccurr => do
      let v ← jsAnd ccurr.val cprev2.val
      pure (ccurr.withVal (some v)))
    .ok (branches, cprev2)

/-- The reduce over the remaining conjuncts of a `conj_list`, mapping each
accumulated branch context through `evalConjStep`. -/
def evalConjRest (ev : Expr → Context → EvalM) :
    List Expr → List Context → Except JsErr (List Context)
  | [], acc => .ok acc
  | c :: rest, acc => do
    let ls ← acc.mapM (fun cprev => do
      let (l, _) ← evalConjStep ev c cprev
      pure l)
    evalConjRest ev rest ls.flatten

/-- `evalConjList` (line 3955): initialise the running value to `TRUE` when
it is `null` (a write on the caller's context object), then thread the
branch contexts left to right through the conjuncts. -/
def evalConjList (ev : Expr → Context → EvalM) (conjs : List Expr) (ctx : Context) : EvalM :=
  let ctx0 := match ctx.val with
    | none => { ctx with val := some (BoolValue true) }
    | some _ => ctx
  match conjs with
  | [] => .ok (some [ctx0], ctx0)
  | c :: rest => do
    let (l1, ctxT) ← evalConjStep ev c ctx0
    let finalL ← evalConjRest ev rest l1
    .ok (some finalL, ctxT)

/-- Sequential evaluation of the disjuncts of a `disj_list` against the
shared context object. -/
def evalDisjEach (ev : Expr → Context → EvalM) :
    List Expr → Context → Except JsErr (List Context × Context)
  | [], ctx => .ok ([], ctx)
  | d :: rest, ctx => do
    let (ropt, ctx2) ← ev d ctx
    let l ← asCtxList ropt
    let (ls, ctxN) ← evalDisjEach ev rest ctx2
    .ok (l ++ ls, ctxN)

/-- `evalDisjList` (line 3941): flatten the branch contexts of all disjuncts
and merge through `processDisjunctiveContexts`. -/
def evalDisjList (ev : Expr → Context → EvalM) (disjs : List Expr) (ctx : Context) : EvalM := do
  let currAssignedVars := assignedVarsList ctx.state
  let (retCtxs, ctxN) ← evalDisjEach ev disjs ctx
  let ret ← processDisjunctiveContexts ctxN retCtxs currAssignedVars
  .ok (some ret, ctxN)

/-- `lodash _.range(start, end)`: with no step argument lodash picks step
`1` when `start < end` and step `-1` otherwise, so a "reversed" range
*descends* instead of being empty. -/
def lodashRange (start endv : Int) : List Int :=
  if start < endv then (List.range (endv - start).toNat).map (fun i => start + i)
  else (List.range (start - endv).toNat).map (fun i => start - i)

/-- The `mul` arm of `evalBoundInfix` (line 3595): multiply the `getVal()`
results of the single first branches.  (JS numeric coercion of boolean or
string `getVal` results is not modelled; the claims only exercise integer
operands, and a Set operand throws at `getVal` before any coercion.) -/
def evalMul (ev : Expr → Context → EvalM) (lhs rhs : Expr) (ctx : Context) : EvalM := do
  let (lopt, ctx1) ← ev lhs ctx
  let lv ← firstContextVal lopt
  let (ropt, ctx2) ← ev rhs ctx1
  let rv ← firstContextVal ropt
  let pl ← getValJsOpt lv
  let pr ← getValJsOpt rv
  match pl, pr with
  | .jint a, .jint b => .ok (some [ctx2.withVal (some (IntValue (a * b)))], ctx2)
  | _, _ => .error .typeErr

/-- The `plus` arm of `evalBoundInfix` (line 3607): asserts both operands
are `IntValue`s. -/
def evalPlus (ev : Expr → Context → EvalM) (lhs rhs : Expr) (ctx : Context) : EvalM := do
  let (lopt, ctx1) ← ev lhs ctx
  let lv ← firstContextVal lopt
  let (ropt, ctx2) ← ev rhs ctx1
  let rv ← firstContextVal ropt
  match lv, rv with
  | some (IntValue a), some (IntValue b) =>
    .ok (some [ctx2.withVal (some (IntValue (a + b)))], ctx2)
  | _, _ => .error .assertErr

/-- The `dots_2` arm of `evalBoundInfix` (line 3792): `a..b` builds
`new SetValue(_.range(a, b + 1).map(IntValue))`. -/
def evalDots2 (ev : Expr → Context → EvalM) (lhs rhs : Expr) (ctx : Context) : EvalM := do
  let (lopt, ctx1) ← ev lhs ctx
  let lv ← firstContextVal lopt
  let (ropt, ctx2) ← ev rhs ctx1
  let rv ← firstContextVal ropt
  match lv, rv with
  | some (IntValue a), some (IntValue b) =>
    .ok (some [ctx2.withVal (some (newSetValue ((lodashRange a (b + 1)).map IntValue)))], ctx2)
  | _, _ => .error .assertErr

/-- Sequential evaluation of set-literal elements, asserting each yields a
single branch (`evalFiniteSetLiteral`, line 4254). -/
def evalSetElems (ev : Expr → Context → EvalM) :
    List Expr → Context → Except JsErr (List (Option TLAValue) × Context)
  | [], ctx => .ok ([], ctx)
  | e :: rest, ctx => do
    let (ropt, ctx1) ← ev e ctx
    let rl ← asCtxList ropt
    match rl with
    | [c] => do
      let (vs, ctxN) ← evalSetElems ev rest ctx1
      .ok (c.val :: vs, ctxN)
    | _ => .error .assertErr

/-- Sequential evaluation of tuple-literal elements via
`evalExpr(el, ctx)[0]["val"]` (line 4925). -/
def evalTupElems (ev : Expr → Context → EvalM) :
    List Expr → Context → Except JsErr (List (Option TLAValue) × Context)
  | [], ctx => .ok ([], ctx)
  | e :: rest, ctx => do
    let (ropt, ctx1) ← ev e ctx
    let v ← firstContextVal ropt
    let (vs, ctxN) ← evalTupElems ev rest ctx1
    .ok (v :: vs, ctxN)

/-- Collected element slots must not be `null`: the `SetValue` constructor
fingerprints every element (throwing on `null`); the model surfaces the
same failure at collection. -/
def unwrapVals (l : List (Option TLAValue)) : Except JsErr (List TLAValue) :=
  l.mapM (fun v => match v with | some w => .ok w | none => .error .typeErr)

/--
  The evaluator `evalExpr` (line 4581), dispatching on the node kind.
  `ap` is the module-global `ASSIGN_PRIMED` flag (`false` during init-state
  evaluation, `true` during next-state evaluation).  The `Nat` budget is
  spent on definition expansion (`evalIdentifierRef`'s defn case and
  `evalUnchanged`'s substitution loop), which is unbounded recursion in the
  JS source; every structural recursion also steps the budget down, so any
  concrete evaluation succeeds for a large enough budget.
-/
def evalE (ap : Bool) : Nat → Expr → Context → EvalM
  | 0, _, _ => .error .fuelErr
  | fuel + 1, e, ctx =>
    match e with
    | .natE n => .ok (some [ctx.withVal (some (IntValue (n : Int)))], ctx)
    | .boolLitE b => .ok (some [ctx.withVal (some (BoolValue b))], ctx)
    | .identE x => evalIdentifierRef (evalE ap fuel) x ctx
    | .primeE inner =>
      -- the pre-dispatch primed-variable check of evalExpr (line 4650):
      -- an assigned primed variable is read back directly; `undefined`
      -- (missing key) passes the `!== null` test and is returned as the
      -- value; a `null` slot falls through to the postfix-prime case.
      if isPrimedVar (.primeE inner) ctx then
        match ctx.state.getVarRaw (Expr.text (.primeE inner)) with
        | some (some v) => .ok (some [ctx.withVal (some v)], ctx)
        | some none => evalE ap fuel inner ctx.withPrimed
        | none => .ok (some [ctx.withVal none], ctx)
      else evalE ap fuel inner ctx.withPrimed
    | .lnotE v => evalLnot (evalE ap fuel) v ctx
    | .landE l r => evalLand (evalE ap fuel) l r ctx
    | .lorE l r => evalLor (evalE ap fuel) l r ctx
    | .impliesE l r => evalImplies (evalE ap fuel) l r ctx
    | .eqE l r => evalEq (evalE ap fuel) ap l r ctx
    | .mulE l r => evalMul (evalE ap fuel) l r ctx
    | .plusE l r => evalPlus (evalE ap fuel) l r ctx
    | .dots2E l r => evalDots2 (evalE ap fuel) l r ctx
    | .conjListE es => evalConjList (evalE ap fuel) es ctx
    | .disjListE es => evalDisjList (evalE ap fuel) es ctx
    | .existsE v dom body => evalBoundedQuantification (evalE ap fuel) false v dom body ctx
    | .forallE v dom body => evalBoundedQuantification (evalE ap fuel) true v dom body ctx
    | .chooseE v dom body => evalChoose (evalE ap fuel) v dom body ctx
    | .setLitE es => do
      let (vs, ctxN) ← evalSetElems (evalE ap fuel) es ctx
      let vals ← unwrapVals vs
      .ok (some [ctxN.withVal (some (newSetValue vals))], ctxN)
    | .tupLitE es => do
      let (vs, ctxN) ← evalTupElems (evalE ap fuel) es ctx
      let vals ← unwrapVals vs
      .ok (some [ctxN.withVal (some (TupleValue vals))], ctxN)
    | .unchangedE arg => evalUnchanged (evalE ap fuel) fuel arg ctx

/-- The initial context of `getInitStates` (line 4964): every declared
variable unassigned, no quantifier bindings, `ASSIGN_PRIMED = false`. -/
def mkInitCtx (vars : List String) (defns : List (String × Expr))
    (consts : List (String × TLAValue)) : Context :=
  ⟨none, ⟨vars.map (fun v => (v, none))⟩, defns, [], consts, none, false⟩

/-- `getInitStates` (line 4964): evaluate the `Init` body in the
all-unassigned context. -/
def getInitStates (fuel : Nat) (initDef : Expr) (vars : List String)
    (defns : List (String × Expr)) (consts : List (String × TLAValue)) : EvalM :=
  evalE false fuel initDef (mkInitCtx vars defns consts)

/-- `TlaInterpreter.computeInitStates` (line 5037): keep the contexts whose
value is truthy and project their states.  No de-duplication happens
here. -/
def computeInitStates (fuel : Nat) (initDef : Expr) (vars : List String)
    (defns : List (String × Expr)) (consts : List (String × TLAValue)) :
    Except JsErr (List TLAState) := do
  let (ropt, _) ← getInitStates fuel initDef vars defns consts
  let l ← asCtxList ropt
  let pairs ← l.mapM (fun c => do
    let p ← getValJsOpt c.val
    pure (c, truthy p))
  .ok ((pairs.filter (·.2)).map (fun pc => pc.1.state))

/-- The declared variables of a state, in key order. -/
def origVarsOf (s : TLAState) : List String := s.stateVars.map (·.1)

/-- The evaluation context of `getNextStates` (line 4995): the current
state extended with one `null` primed slot per variable. -/
def mkNextCtx (s : TLAState) (defns : List (String × Expr))
    (consts : List (String × TLAValue)) : Context :=
  ⟨none, ⟨s.stateVars ++ (origVarsOf s).map (fun k => (k ++ primeStr, none))⟩,
    defns, [], consts, none, false⟩

/-- `getNextStates` (line 4995): evaluate the `Next` body with
`ASSIGN_PRIMED = true`, keep the branches whose value is strictly `true`,
then keep only those in which every primed variable is assigned. -/
def getNextStates (fuel : Nat) (nextDef : Expr) (s : TLAState)
    (defns : List (String × Expr)) (consts : List (String × TLAValue)) :
    Except JsErr (List Context) := do
  let origVars := origVarsOf s
  let (ropt, _) ← evalE true fuel nextDef (mkNextCtx s defns consts)
  let ret ← asCtxList ropt
  let pairs ← ret.mapM (fun c => do
    let p ← getValJsOpt c.val
    pure (c, p == JsPrim.jbool true))
  let ret1 := (pairs.filter (·.2)).map (·.1)
  .ok (ret1.filter (fun c => origVars.all (fun v => (c.state.getVarVal (v ++ primeStr)).isSome)))

/-! ### Shared lemmas about the embedding -/

theorem exbind_ok {ε α β : Type} (a : α) (f : α → Except ε β) :
    (Except.ok a >>= f) = f a := rfl

theorem exbind_err {ε α β : Type} (e : ε) (f : α → Except ε β) :
    ((Except.error e : Except ε α) >>= f) = Except.error e := rfl

theorem mapM_except_ok {ε α β : Type} (f : α → Except ε β) (g : α → β) :
    ∀ (l : List α), (∀ a ∈ l, f a = .ok (g a)) → l.mapM f = .ok (l.map g) := by
  intro l
  induction l with
  | nil => intro _; rfl
  | cons a as ih =>
    intro h
    have ha : f a = .ok (g a) := h a (List.mem_cons_self a as)
    have has : as.mapM f = .ok (as.map g) := ih (fun b hb => h b (List.mem_cons_of_mem a hb))
    rw [List.mapM_cons, ha, has]
    rfl

theorem mapM_option_some {α β : Type} (f : α → Option β) (g : α → β) :
    ∀ (l : List α), (∀ a ∈ l, f a = some (g a)) → l.mapM f = some (l.map g) := by
  intro l
  induction l with
  | nil => intro _; rfl
  | cons a as ih =>
    intro h
    have ha : f a = some (g a) := h a (List.mem_cons_self a as)
    have has : as.mapM f = some (as.map g) := ih (fun b hb => h b (List.mem_cons_of_mem a hb))
    rw [List.mapM_cons, ha, has]
    rfl

theorem filter_map_pair {α : Type} (p : α → Bool) :
    ∀ (l : List α), (((l.map (fun c => (c, p c))).filter (fun q => q.2)).map (fun q => q.1))
      = l.filter p := by
  intro l
  induction l with
  | nil => rfl
  | cons a as ih =>
    by_cases hp : p a
    · simp [List.filter_cons, hp, ih]
    · simp [List.filter_cons, hp, ih]

theorem filter_map_pair_proj {α β : Type} (p : α → Bool) (g : α → β) :
    ∀ (l : List α), (((l.map (fun c => (c, p c))).filter (fun q => q.2)).map (fun q => g q.1))
      = (l.filter p).map g := by
  intro l
  induction l with
  | nil => rfl
  | cons a as ih =>
    by_cases hp : p a
    · simp [List.filter_cons, hp, ih]
    · simp [List.filter_cons, hp, ih]

theorem hasVar_of_getVarRaw {s : TLAState} {k : String} {o : Option TLAValue}
    (h : s.getVarRaw k = some o) : s.hasVar k = true := by
  unfold TLAState.getVarRaw at h
  unfold TLAState.hasVar
  cases hf : s.stateVars.find? (fun p => p.1 == k) with
  | none => rw [hf] at h; simp at h
  | some q =>
    have := List.find?_some hf
    have hmem := List.mem_of_find?_eq_some hf
    exact List.any_eq_true.mpr ⟨q, hmem, this⟩

theorem getVarVal_eq_of_raw {s : TLAState} {k : String} {o : Option TLAValue}
    (h : s.getVarRaw k = some o) : s.getVarVal k = o.join := by
  unfold TLAState.getVarVal
  rw [h]
  cases o <;> rfl

theorem strmk_data (x : String) : String.mk x.data = x := rfl

theorem dropLastChar_append_prime (x : String) : dropLastChar (x ++ primeStr) = x := by
  unfold dropLastChar
  have hd : (x ++ primeStr).data = x.data ++ [primeChar] := rfl
  rw [hd, List.dropLast_concat]

theorem endsWithPrime_append (x : String) : endsWithPrime (x ++ primeStr) = true := by
  unfold endsWithPrime
  have hd : (x ++ primeStr).data = x.data ++ [primeChar] := rfl
  rw [hd, List.getLast?_concat]
  rfl

/-! ### Concrete fixtures used by the claim theorems -/

/-- A context with no state variables, definitions or constants. -/
def emptyCtx : Context := ⟨none, ⟨[]⟩, [], [], [], none, false⟩

/-- An init-mode context with the single unassigned variable `x`. -/
def oneVarCtx : Context := ⟨none, ⟨[("x", none)]⟩, [], [], [], none, false⟩

/-- The state `x = 0`. -/
def stX0 : TLAState := ⟨[("x", some (IntValue 0))]⟩

/-- The next-state evaluation context from `x = 0` (primed slot `null`). -/
def nextCtxX0 : Context := mkNextCtx stX0 [] []

/-- The state `x = 0` with the primed variable bound to `0`. -/
def stMut : TLAState := ⟨[("x", some (IntValue 0)), ("x" ++ primeStr, some (IntValue 0))]⟩

/-- The state `x = 0` with the primed variable bound to `1`. -/
def stNext1 : TLAState := ⟨[("x", some (IntValue 0)), ("x" ++ primeStr, some (IntValue 1))]⟩

/-! ### Claim theorems -/

/-- Claim C9: the spec says `a..b` is the inclusive integer range, empty
whenever `a > b`.  The code builds it with lodash `_.range(a, b + 1)`,
which silently switches to step `-1` when `a > b + 1`, so `3..1` evaluates
to the non-empty set containing `3` (the correct ascending and
singleton-boundary cases are shown alongside). -/
theorem dots2_reversed_range_nonempty :
    evalE false 5 (.dots2E (.natE 3) (.natE 1)) emptyCtx
      = .ok (some [emptyCtx.withVal (some (SetValue [IntValue 3]))], emptyCtx)
    ∧ evalE false 5 (.dots2E (.natE 1) (.natE 3)) emptyCtx
      = .ok (some [emptyCtx.withVal (some (SetValue [IntValue 1, IntValue 2, IntValue 3]))], emptyCtx)
    ∧ evalE false 5 (.dots2E (.natE 3) (.natE 2)) emptyCtx
      = .ok (some [emptyCtx.withVal (some (SetValue []))], emptyCtx) :=
  ⟨rfl, rfl, rfl⟩

/-- Claim C4: the spec says `CHOOSE v \in S : P` iterates `S` in
fingerprint-sorted order.  The code iterates the *stored insertion order*
of the set (its own TODO comment acknowledges that hash ordering is not
implemented): `CHOOSE v \in (set written as 1,2) : TRUE` yields `1` while
`CHOOSE v \in (set written as 2,1) : TRUE` yields `2`, although the two
sets are the same value (equal fingerprints), so neither result can be the
first element of a fingerprint-sorted iteration in both cases. -/
theorem evalChoose_stored_order_at_failing_input :
    evalE false 10 (.chooseE "v" (.setLitE [.natE 1, .natE 2]) (.boolLitE true)) emptyCtx
      = .ok (some [emptyCtx.withVal (some (IntValue 1))], emptyCtx)
    ∧ evalE false 10 (.chooseE "v" (.setLitE [.natE 2, .natE 1]) (.boolLitE true)) emptyCtx
      = .ok (some [emptyCtx.withVal (some (IntValue 2))], emptyCtx)
    ∧ fpv (newSetValue [IntValue 1, IntValue 2]) = fpv (newSetValue [IntValue 2, IntValue 1])
    ∧ (IntValue 1 ≠ IntValue 2) :=
  ⟨rfl, rfl, rfl, by intro h; injection h with h'; exact absurd h' (by decide)⟩

/-- Claim C6: the spec says unbound identifiers fail the branch with a
propagated error and evaluation never silently produces an undefined
result.  A type mismatch (`*` on a Set) does throw, but an unbound
identifier makes `evalIdentifierRef` fall off its end and return
`undefined` (no error), and `evalLand` flattens that `undefined` into an
*empty branch list*, silently discarding the conjunction. -/
theorem unbound_identifier_silently_undefined :
    evalE false 3 (.identE "undef") emptyCtx = .ok (none, emptyCtx)
    ∧ evalE false 4 (.landE (.identE "undef") (.eqE (.identE "x") (.natE 0))) oneVarCtx
      = .ok (some [], oneVarCtx)
    ∧ evalE false 4 (.mulE (.setLitE []) (.natE 1)) emptyCtx = .error .typeErr :=
  ⟨rfl, rfl, rfl⟩

/-- Claim C5 counterexample: `Init == x = 0 \/ x = 0` produces the state
`x = 0` *twice* from `computeInitStates` — the returned list is not
de-duplicated by state fingerprint (both entries are literally the same
state, so their fingerprints coincide). -/
theorem computeInitStates_duplicate_states_counterexample :
    computeInitStates 6 (.lorE (.eqE (.identE "x") (.natE 0)) (.eqE (.identE "x") (.natE 0)))
        ["x"] [] []
      = .ok [stX0, stX0]
    ∧ TLAState.fingerprintS stX0 = TLAState.fingerprintS stX0 :=
  ⟨rfl, rfl⟩

/-- Claim C8 counterexample: round-tripping the tuple `<<1, 2, 1>>` through
`toFcnRcd` and `toTuple` yields `<<2, 1, 1>>` — `toTuple`'s reverse index
keyed by stringified values collapses the duplicate `1`s to the last
domain position and the sort by stringified `IntValue` keys reorders the
elements — and the fingerprint changes. -/
theorem tuple_toFcn_toTuple_duplicates_counterexample :
    toTupleVal (toFcnRcd [IntValue 1, IntValue 2, IntValue 1])
      = .ok (TupleValue [IntValue 2, IntValue 1, IntValue 1])
    ∧ fpv (TupleValue [IntValue 2, IntValue 1, IntValue 1])
        ≠ fpv (TupleValue [IntValue 1, IntValue 2, IntValue 1]) :=
  ⟨rfl, by decide⟩

/-- Claim C7 counterexample: evaluating
`(UNCHANGED x) \/ (x-primed = x + 1)` from `x = 0` in next-state mode,
the left disjunct binds the primed variable by assigning `ctx.state` on
the shared context object; the right disjunct — a sibling branch evaluated
from the same parent context — then sees the primed variable as already
assigned (`0`) and evaluates to `FALSE`, although the same expression
evaluated directly from the parent context assigns `1` and yields `TRUE`. -/
theorem unchanged_mutation_observed_by_sibling_counterexample :
    evalE true 8
        (.lorE (.unchangedE (.identE "x"))
          (.eqE (.primeE (.identE "x")) (.plusE (.identE "x") (.natE 1)))) nextCtxX0
      = .ok (some [Context.withVal { nextCtxX0 with state := stMut } (some (BoolValue true)),
                   Context.withVal { nextCtxX0 with state := stMut } (some (BoolValue false))],
             { nextCtxX0 with state := stMut })
    ∧ evalE true 8 (.eqE (.primeE (.identE "x")) (.plusE (.identE "x") (.natE 1))) nextCtxX0
      = .ok (some [nextCtxX0.withValAndState (some (BoolValue true)) stNext1], nextCtxX0) :=
  ⟨rfl, rfl⟩

/-- Claim C10 counterexample: `~((x-primed = 1) \/ UNCHANGED x)` returns a
single context with the negation of the *first* branch value, but the
state assignment made by the *second* (discarded) branch — `UNCHANGED x`
binds the primed variable by mutating the shared context — persists in
the returned context, so discarded branches' assignments are not all
discarded. -/
theorem lnot_carries_mutated_assignment_counterexample :
    evalE true 8
        (.lnotE (.lorE (.eqE (.primeE (.identE "x")) (.natE 1))
          (.unchangedE (.identE "x")))) nextCtxX0
      = .ok (some [Context.withVal { nextCtxX0 with state := stMut } (some (BoolValue false))],
             { nextCtxX0 with state := stMut })
    ∧ TLAState.getVarVal stMut ("x" ++ primeStr) = some (IntValue 0) :=
  ⟨rfl, rfl⟩

/-- Claim C10 (amended): `~E` returns exactly one context whose value is
the boolean negation of the first returned branch's value, and `a => b`
likewise uses only the first branch of each operand (the remaining branch
contexts are discarded); the returned context is the operand evaluation's
threaded — possibly mutated — input context. -/
theorem lnot_implies_use_first_branch :
    (∀ (ap : Bool) (fuel : Nat) (e : Expr) (ctx c ctx1 : Context) (rest : List Context)
        (v : TLAValue) (p : JsPrim),
      evalE ap fuel e ctx = .ok (some (c :: rest), ctx1) →
      c.val = some v → getValJs v = .ok p →
      evalE ap (fuel + 1) (.lnotE e) ctx
        = .ok (some [ctx1.withVal (some (BoolValue (!truthy p)))], ctx1))
    ∧ (∀ (ap : Bool) (fuel : Nat) (l r : Expr) (ctx lc ctx1 rc ctx2 : Context)
        (lrest rrest : List Context) (lv rv : TLAValue) (pl pr : JsPrim),
      evalE ap fuel l ctx = .ok (some (lc :: lrest), ctx1) →
      evalE ap fuel r ctx1 = .ok (some (rc :: rrest), ctx2) →
      lc.val = some lv → getValJs lv = .ok pl →
      rc.val = some rv → getValJs rv = .ok pr →
      evalE ap (fuel + 1) (.impliesE l r) ctx
        = .ok (some [ctx2.withVal (some (BoolValue (if truthy pl then truthy pr else true)))],
            ctx2)) := by
  constructor
  · intro ap fuel e ctx c ctx1 rest v p hev hval hp
    have e1 : evalE ap (fuel + 1) (.lnotE e) ctx = evalLnot (evalE ap fuel) e ctx := rfl
    rw [e1]
    unfold evalLnot
    rw [hev]
    simp [firstContextVal, hval, getValJsOpt, hp, Bind.bind, Except.bind]
  · intro ap fuel l r ctx lc ctx1 rc ctx2 lrest rrest lv rv pl pr hl hr hlv hpl hrv hpr
    have e1 : evalE ap (fuel + 1) (.impliesE l r) ctx = evalImplies (evalE ap fuel) l r ctx := rfl
    rw [e1]
    unfold evalImplies
    rw [hl]
    simp only [Bind.bind, Except.bind, firstContextVal]
    rw [hr]
    simp only [firstContextVal, hlv, hrv, getValJsOpt, hpl, hpr]
    by_cases htp : truthy pl
    · simp [htp, Bind.bind, Except.bind, Pure.pure, Except.pure, hpr]
    · simp [htp, Bind.bind, Except.bind, Pure.pure, Except.pure]

/-- Claim C10 witness: concrete instances of both conjuncts. -/
theorem lnot_implies_use_first_branch_witness :
    evalE false 2 (.lnotE (.boolLitE true)) emptyCtx
      = .ok (some [emptyCtx.withVal (some (BoolValue false))], emptyCtx)
    ∧ evalE false 2 (.impliesE (.boolLitE true) (.boolLitE false)) emptyCtx
      = .ok (some [emptyCtx.withVal (some (BoolValue false))], emptyCtx) := by
  constructor
  · have h := lnot_implies_use_first_branch.1 false 1 (.boolLitE true) emptyCtx
      (emptyCtx.withVal (some (BoolValue true))) emptyCtx [] (BoolValue true) (.jbool true)
      rfl rfl rfl
    exact h
  · have h := lnot_implies_use_first_branch.2 false 1 (.boolLitE true) (.boolLitE false)
      emptyCtx (emptyCtx.withVal (some (BoolValue true))) emptyCtx
      (emptyCtx.withVal (some (BoolValue false))) emptyCtx [] []
      (BoolValue true) (BoolValue false) (.jbool true) (.jbool false)
      rfl rfl rfl rfl rfl rfl
    exact h

/-- Claim C7 (amended): the Context helpers return fresh copies, but
`UNCHANGED x` binds the primed variable by reassigning `ctx.state` on the
caller's context object: the threaded context coming back from the call is
the input context with the primed variable bound to the unprimed value,
which is how a sibling disjunct sharing that object observes the
assignment. -/
theorem evalUnchanged_assigns_primed_by_mutation :
    ∀ (ap : Bool) (fuel : Nat) (x : String) (ctx : Context),
      ctx.defns.lookup x = none →
      ctx.state.hasVar x = true →
      ctx.primed = false →
      evalE ap (fuel + 2) (.unchangedE (.identE x)) ctx
        = .ok (some [Context.withVal
              { ctx with state := ctx.state.withVarVal (x ++ primeStr) (ctx.state.getVarVal x) }
              (some (BoolValue true))],
            { ctx with state := ctx.state.withVarVal (x ++ primeStr) (ctx.state.getVarVal x) }) := by
  intro ap fuel x ctx hdef hvar hprimed
  have e1 : evalE ap (fuel + 2) (.unchangedE (.identE x)) ctx
      = evalUnchanged (evalE ap (fuel + 1)) (fuel + 1) (.identE x) ctx := rfl
  rw [e1]
  have hres : resolveUnchangedArg ctx.defns (fuel + 1) (.identE x) = some (.identE x) := by
    unfold resolveUnchangedArg
    simp [hdef]
  have e2 : evalE ap (fuel + 1) (.identE x) ctx = evalIdentifierRef (evalE ap fuel) x ctx := rfl
  have hid : evalIdentifierRef (evalE ap fuel) x ctx
      = .ok (some [ctx.withVal (ctx.state.getVarVal x)], ctx) := by
    unfold evalIdentifierRef
    rw [hvar, hprimed]
    simp
  unfold evalUnchanged
  rw [hres]
  simp only [e2, hid, firstContextVal, Bind.bind, Except.bind, Context.withVal]

/-- Claim C7 witness: the amended statement at the concrete next-state
context from `x = 0`. -/
theorem evalUnchanged_assigns_primed_by_mutation_witness :
    evalE true 5 (.unchangedE (.identE "x")) nextCtxX0
      = .ok (some [Context.withVal
            { nextCtxX0 with
                state := nextCtxX0.state.withVarVal ("x" ++ primeStr)
                  (nextCtxX0.state.getVarVal "x") }
            (some (BoolValue true))],
          { nextCtxX0 with
              state := nextCtxX0.state.withVarVal ("x" ++ primeStr)
                (nextCtxX0.state.getVarVal "x") }) := by
  have h := evalUnchanged_assigns_primed_by_mutation true 3 "x" nextCtxX0 rfl rfl rfl
  exact h

/-- Claim C5 (amended): `computeInitStates` returns exactly the states of
the truthy evaluation branches of `Init`, one per branch in branch order,
with no de-duplication by state fingerprint. -/
theorem computeInitStates_truthy_branch_states :
    ∀ (fuel : Nat) (initDef : Expr) (vars : List String) (defns : List (String × Expr))
      (consts : List (String × TLAValue)) (l : List Context) (ctxT : Context),
      evalE false fuel initDef (mkInitCtx vars defns consts) = .ok (some l, ctxT) →
      (∀ c ∈ l, ∃ b, c.val = some (BoolValue b)) →
      computeInitStates fuel initDef vars defns consts
        = .ok ((l.filter (fun c => match c.val with
            | some (BoolValue b) => b
            | _ => false)).map (fun c => c.state)) := by
  intro fuel initDef vars defns consts l ctxT heval hbool
  unfold computeInitStates getInitStates
  rw [heval]
  simp only [exbind_ok, asCtxList]
  have hmap : l.mapM (fun c => do
        let p ← getValJsOpt c.val
        pure (c, truthy p))
      = Except.ok (l.map (fun c => (c, match c.val with
          | some (BoolValue b) => b
          | _ => false))) := by
    apply mapM_except_ok
    intro c hc
    obtain ⟨b, hb⟩ := hbool c hc
    rw [hb]
    rfl
  rw [hmap]
  simp only [exbind_ok]
  exact congrArg Except.ok (filter_map_pair_proj (fun c => match c.val with
    | some (BoolValue b) => b
    | _ => false) (fun c => c.state) l)

/-- Claim C5 witness: the amended statement at the duplicate-disjunct
`Init == x = 0 \/ x = 0`, yielding the state `x = 0` twice. -/
theorem computeInitStates_truthy_branch_states_witness :
    computeInitStates 6 (.lorE (.eqE (.identE "x") (.natE 0)) (.eqE (.identE "x") (.natE 0)))
        ["x"] [] []
      = .ok [stX0, stX0] := by
  have h := computeInitStates_truthy_branch_states 6
    (.lorE (.eqE (.identE "x") (.natE 0)) (.eqE (.identE "x") (.natE 0))) ["x"] [] []
    [(mkInitCtx ["x"] [] []).withValAndState (some (BoolValue true)) stX0,
     (mkInitCtx ["x"] [] []).withValAndState (some (BoolValue true)) stX0]
    (mkInitCtx ["x"] [] []) rfl
    (by
      intro c hc
      simp only [List.mem_cons, List.not_mem_nil, or_false] at hc
      rcases hc with rfl | rfl <;> exact ⟨true, rfl⟩)
  simpa using h

/-- Claim C3: `getNextStates` keeps exactly the evaluation branches of the
`Next` body whose value is `TRUE` and in which every primed variable is
assigned; `TRUE` branches with an unassigned primed variable are dropped
without error.  `deprimeVars` drops the unprimed entries and renames each
primed key back to its base name. -/
theorem getNextStates_true_and_assigned_branches :
    (∀ (fuel : Nat) (nextDef : Expr) (s : TLAState) (defns : List (String × Expr))
        (consts : List (String × TLAValue)) (l : List Context) (ctxT : Context),
      evalE true fuel nextDef (mkNextCtx s defns consts) = .ok (some l, ctxT) →
      (∀ c ∈ l, ∃ b, c.val = some (BoolValue b)) →
      ∃ res, getNextStates fuel nextDef s defns consts = .ok res
        ∧ res = (l.filter (fun c => match c.val with
              | some (BoolValue b) => b
              | _ => false)).filter
            (fun c => (origVarsOf s).all (fun v => (c.state.getVarVal (v ++ primeStr)).isSome))
        ∧ (∀ c, c ∈ res ↔ c ∈ l ∧ c.val = some (BoolValue true)
            ∧ ∀ v ∈ origVarsOf s, (c.state.getVarVal (v ++ primeStr)).isSome = true))
    ∧ (∀ (st : TLAState) (k : String) (vo : Option TLAValue),
        ((k, vo) ∈ st.deprimeVars.stateVars
          ↔ ∃ k0, (k0, vo) ∈ st.stateVars ∧ endsWithPrime k0 = true ∧ dropLastChar k0 = k))
    ∧ (∀ (st : TLAState) (x : String) (vo : Option TLAValue),
        (x ++ primeStr, vo) ∈ st.stateVars → (x, vo) ∈ st.deprimeVars.stateVars) := by
  have hdep : ∀ (st : TLAState) (k : String) (vo : Option TLAValue),
      ((k, vo) ∈ st.deprimeVars.stateVars
        ↔ ∃ k0, (k0, vo) ∈ st.stateVars ∧ endsWithPrime k0 = true ∧ dropLastChar k0 = k) := by
    intro st k vo
    unfold TLAState.deprimeVars
    simp only [List.mem_map, List.mem_filter]
    constructor
    · rintro ⟨⟨k0, v0⟩, ⟨hmem, hprime⟩, heq⟩
      rw [Prod.mk.injEq] at heq
      obtain ⟨h1, h2⟩ := heq
      subst h2
      exact ⟨k0, hmem, hprime, h1⟩
    · rintro ⟨k0, hmem, hprime, hdrop⟩
      exact ⟨(k0, vo), ⟨hmem, hprime⟩, by rw [hdrop]⟩
  refine ⟨?_, hdep, ?_⟩
  · intro fuel nextDef s defns consts l ctxT heval hbool
    unfold getNextStates
    rw [heval]
    simp only [exbind_ok, asCtxList]
    have hmap : l.mapM (fun c => do
          let p ← getValJsOpt c.val
          pure (c, p == JsPrim.jbool true))
        = Except.ok (l.map (fun c => (c, match c.val with
            | some (BoolValue b) => b
            | _ => false))) := by
      apply mapM_except_ok
      intro c hc
      obtain ⟨b, hb⟩ := hbool c hc
      rw [hb]
      cases b <;> rfl
    rw [hmap]
    simp only [exbind_ok]
    rw [filter_map_pair (fun c => match c.val with
      | some (BoolValue b) => b
      | _ => false) l]
    refine ⟨_, rfl, rfl, ?_⟩
    intro c
    simp only [List.mem_filter, List.all_eq_true]
    constructor
    · rintro ⟨⟨hc, hval⟩, hprimed⟩
      obtain ⟨b, hb⟩ := hbool c hc
      rw [hb] at hval ⊢
      cases b
      · simp at hval
      · exact ⟨hc, rfl, fun v hv => hprimed v hv⟩
    · rintro ⟨hc, hval, hprimed⟩
      rw [hval]
      exact ⟨⟨hc, rfl⟩, fun v hv => hprimed v hv⟩
  · intro st x vo hmem
    exact (hdep st x vo).mpr ⟨x ++ primeStr, hmem, endsWithPrime_append x, dropLastChar_append_prime x⟩

/-- Claim C3 witness: from `x = 0` with
`Next == (x-primed = x + 1) \/ (x = 0)`, both branches are `TRUE`, but only
the branch that assigned the primed variable is kept; the second (primed
slot still `null`) is excluded without an error. -/
theorem getNextStates_true_and_assigned_branches_witness :
    getNextStates 10 (.lorE (.eqE (.primeE (.identE "x")) (.plusE (.identE "x") (.natE 1)))
        (.eqE (.identE "x") (.natE 0))) stX0 [] []
      = .ok [nextCtxX0.withValAndState (some (BoolValue true)) stNext1] := by
  obtain ⟨res, hres, hreseq, _⟩ := getNextStates_true_and_assigned_branches.1 10
    (.lorE (.eqE (.primeE (.identE "x")) (.plusE (.identE "x") (.natE 1)))
      (.eqE (.identE "x") (.natE 0))) stX0 [] []
    [nextCtxX0.withValAndState (some (BoolValue true)) stNext1,
     nextCtxX0.withVal (some (BoolValue true))]
    nextCtxX0 rfl
    (by
      intro c hc
      simp only [List.mem_cons, List.not_mem_nil, or_false] at hc
      rcases hc with rfl | rfl <;> exact ⟨true, rfl⟩)
  rw [hres, hreseq]
  rfl

/-- Claim C1: when a disjunctive construct (`\/` via `evalLor`, a
disjunction list via `evalDisjList`, or `\E` via
`evalBoundedQuantification`) has produced more than one sub-branch
context, `processDisjunctiveContexts` returns the full list unchanged if
some sub-context assigned a state variable that was unassigned in the
parent context, and otherwise collapses to exactly one context whose value
is the boolean "some branch is true" and whose state is the parent's
state.  The hypotheses reflect the call sites: every sub-context extends
the parent's assignments (evaluation never unassigns a variable) and the
assigned-variable lists are duplicate-free (object keys are unique). -/
theorem processDisjunctiveContexts_branch_merge :
    ∀ (ctx : Context) (retCtxs : List Context),
      1 < retCtxs.length →
      (∀ c ∈ retCtxs, ∃ b, c.val = some (BoolValue b)) →
      (∀ c ∈ retCtxs, ∀ v ∈ assignedVarsList ctx.state, v ∈ assignedVarsList c.state) →
      (assignedVarsList ctx.state).Nodup →
      (∀ c ∈ retCtxs, (assignedVarsList c.state).Nodup) →
      ((∃ c ∈ retCtxs, ∃ v ∈ assignedVarsList c.state, v ∉ assignedVarsList ctx.state) →
        processDisjunctiveContexts ctx retCtxs (assignedVarsList ctx.state) = .ok retCtxs)
      ∧ ((∀ c ∈ retCtxs, ∀ v ∈ assignedVarsList c.state, v ∈ assignedVarsList ctx.state) →
        processDisjunctiveContexts ctx retCtxs (assignedVarsList ctx.state)
          = .ok [ctx.withVal (some (BoolValue (retCtxs.any (fun c => match c.val with
              | some (BoolValue b) => b
              | _ => false))))])
      ∧ ((retCtxs.any (fun c => match c.val with
            | some (BoolValue b) => b
            | _ => false)) = true ↔ ∃ c ∈ retCtxs, c.val = some (BoolValue true))
      ∧ (Context.withVal ctx (some (BoolValue (retCtxs.any (fun c => match c.val with
            | some (BoolValue b) => b
            | _ => false))))).state = ctx.state := by
  intro ctx retCtxs hlen hbool hext hndP hndC
  have hcard : ∀ c ∈ retCtxs,
      ((assignedVarsList ctx.state).length < (assignedVarsList c.state).length
        ↔ ∃ v ∈ assignedVarsList c.state, v ∉ assignedVarsList ctx.state) := by
    intro c hc
    have hsub : (assignedVarsList ctx.state).toFinset ⊆ (assignedVarsList c.state).toFinset := by
      intro v hv
      exact List.mem_toFinset.mpr (hext c hc v (List.mem_toFinset.mp hv))
    have hcA : (assignedVarsList ctx.state).toFinset.card = (assignedVarsList ctx.state).length :=
      List.toFinset_card_of_nodup hndP
    have hcC : (assignedVarsList c.state).toFinset.card = (assignedVarsList c.state).length :=
      List.toFinset_card_of_nodup (hndC c hc)
    constructor
    · intro hlt
      have hne : (assignedVarsList ctx.state).toFinset ≠ (assignedVarsList c.state).toFinset := by
        intro he
        rw [he] at hcA
        omega
      have hss : (assignedVarsList ctx.state).toFinset ⊂ (assignedVarsList c.state).toFinset :=
        (Finset.ssubset_iff_subset_ne).mpr ⟨hsub, hne⟩
      obtain ⟨v, hvC, hvA⟩ := (Finset.ssubset_iff_of_subset hsub).mp hss
      exact ⟨v, List.mem_toFinset.mp hvC, fun h => hvA (List.mem_toFinset.mpr h)⟩
    · rintro ⟨v, hvC, hvA⟩
      have hss : (assignedVarsList ctx.state).toFinset ⊂ (assignedVarsList c.state).toFinset :=
        (Finset.ssubset_iff_of_subset hsub).mpr
          ⟨v, List.mem_toFinset.mpr hvC, fun h => hvA (List.mem_toFinset.mp h)⟩
      have := Finset.card_lt_card hss
      omega
  have hall : retCtxs.all (fun c => match c.val with
      | some (BoolValue _) => true
      | _ => false) = true := by
    rw [List.all_eq_true]
    intro c hc
    obtain ⟨b, hb⟩ := hbool c hc
    rw [hb]
  have hsome : (retCtxs.any (fun c => match c.val with
      | some (BoolValue b) => b
      | _ => false)) = true ↔ ∃ c ∈ retCtxs, c.val = some (BoolValue true) := by
    rw [List.any_eq_true]
    constructor
    · rintro ⟨c, hc, hv⟩
      obtain ⟨b, hb⟩ := hbool c hc
      rw [hb] at hv
      cases b
      · simp at hv
      · exact ⟨c, hc, hb⟩
    · rintro ⟨c, hc, hv⟩
      refine ⟨c, hc, ?_⟩
      rw [hv]
  refine ⟨?_, ?_, hsome, rfl⟩
  · rintro ⟨c, hc, v, hvC, hvA⟩
    have hsub : retCtxs.any
        (fun c => (assignedVarsList ctx.state).length < (assignedVarsList c.state).length)
        = true := by
      rw [List.any_eq_true]
      exact ⟨c, hc, by simp [(hcard c hc).mpr ⟨v, hvC, hvA⟩]⟩
    unfold processDisjunctiveContexts
    simp only [hall, if_pos hlen, gt_iff_lt, hsub]
    rfl
  · intro hnone
    have hsub : retCtxs.any
        (fun c => (assignedVarsList ctx.state).length < (assignedVarsList c.state).length)
        = false := by
      rw [List.any_eq_false]
      intro c hc
      simp only [decide_eq_true_eq]
      intro hlt
      obtain ⟨v, hvC, hvA⟩ := (hcard c hc).mp hlt
      exact hvA (hnone c hc v hvC)
    unfold processDisjunctiveContexts
    simp only [hall, if_pos hlen, gt_iff_lt, hsub]
    rfl

/-- Claim C1 witness: with parent state `x = 0, x-primed = null`, two
boolean branches with no new assignment collapse to a single `TRUE`
context with the parent's state, while two branches of which one assigned
the primed variable are returned unchanged. -/
theorem processDisjunctiveContexts_branch_merge_witness :
    processDisjunctiveContexts nextCtxX0
        [nextCtxX0.withVal (some (BoolValue false)), nextCtxX0.withVal (some (BoolValue true))]
        (assignedVarsList nextCtxX0.state)
      = .ok [nextCtxX0.withVal (some (BoolValue true))]
    ∧ processDisjunctiveContexts nextCtxX0
        [nextCtxX0.withValAndState (some (BoolValue true)) stNext1,
         nextCtxX0.withVal (some (BoolValue true))]
        (assignedVarsList nextCtxX0.state)
      = .ok [nextCtxX0.withValAndState (some (BoolValue true)) stNext1,
             nextCtxX0.withVal (some (BoolValue true))] := by
  constructor
  · have h := (processDisjunctiveContexts_branch_merge nextCtxX0
      [nextCtxX0.withVal (some (BoolValue false)), nextCtxX0.withVal (some (BoolValue true))]
      (by decide)
      (by
        intro c hc
        simp only [List.mem_cons, List.not_mem_nil, or_false] at hc
        rcases hc with rfl | rfl
        · exact ⟨false, rfl⟩
        · exact ⟨true, rfl⟩)
      (by
        intro c hc
        simp only [List.mem_cons, List.not_mem_nil, or_false] at hc
        rcases hc with rfl | rfl <;> exact fun v hv => hv)
      (by decide)
      (by
        intro c hc
        simp only [List.mem_cons, List.not_mem_nil, or_false] at hc
        rcases hc with rfl | rfl <;> decide)).2.1
      (by
        intro c hc
        simp only [List.mem_cons, List.not_mem_nil, or_false] at hc
        rcases hc with rfl | rfl <;> exact fun v hv => hv)
    simpa using h
  · have h := (processDisjunctiveContexts_branch_merge nextCtxX0
      [nextCtxX0.withValAndState (some (BoolValue true)) stNext1,
       nextCtxX0.withVal (some (BoolValue true))]
      (by decide)
      (by
        intro c hc
        simp only [List.mem_cons, List.not_mem_nil, or_false] at hc
        rcases hc with rfl | rfl <;> exact ⟨true, rfl⟩)
      (by
        intro c hc
        simp only [List.mem_cons, List.not_mem_nil, or_false] at hc
        rcases hc with rfl | rfl
        · intro v hv
          have hv2 : v ∈ ["x"] := hv
          simp only [List.mem_cons, List.not_mem_nil, or_false] at hv2
          subst hv2
          decide
        · exact fun v hv => hv)
      (by decide)
      (by
        intro c hc
        simp only [List.mem_cons, List.not_mem_nil, or_false] at hc
        rcases hc with rfl | rfl <;> decide)).1
      (by
        refine ⟨nextCtxX0.withValAndState (some (BoolValue true)) stNext1, ?_, ?_⟩
        · simp
        · exact ⟨"x" ++ primeStr, by decide, by decide⟩)
    simpa using h

/-- Claim C2: `lhs = rhs` is assignment-or-comparison.  (a) A primed state
variable (its base variable being assigned, as `isPrimedVar` requires)
that is still unassigned is bound to the single right-hand-side result and
the value is `TRUE`; (a') likewise an unprimed state variable during
init-evaluation (`ASSIGN_PRIMED` off).  (b) If the primed variable is
already assigned, the result is the fingerprint equality of the assigned
value and the right-hand side; (b') likewise for an assigned unprimed
variable during init-evaluation.  (c) In all other cases both sides are
evaluated (against clones) and compared by fingerprint. -/
theorem evalEq_assignment_or_comparison :
    (∀ (ap : Bool) (fuel : Nat) (x : String) (rhs : Expr) (ctx : Context) (xv : TLAValue)
        (rc ctxr : Context),
      ctx.state.getVarRaw x = some (some xv) →
      ctx.state.getVarRaw (x ++ primeStr) = some none →
      evalE ap fuel rhs ctx.clone = .ok (some [rc], ctxr) →
      evalE ap (fuel + 1) (.eqE (.primeE (.identE x)) rhs) ctx
        = .ok (some [ctx.withValAndState (some (BoolValue true))
            (ctx.state.withVarVal (x ++ primeStr) rc.val)], ctx))
    ∧ (∀ (fuel : Nat) (x : String) (rhs : Expr) (ctx : Context) (rc ctxr : Context),
      ctx.state.getVarRaw x = some none →
      evalE false fuel rhs ctx.clone = .ok (some [rc], ctxr) →
      evalE false (fuel + 1) (.eqE (.identE x) rhs) ctx
        = .ok (some [ctx.withValAndState (some (BoolValue true))
            (ctx.state.withVarVal x rc.val)], ctx))
    ∧ (∀ (ap : Bool) (fuel : Nat) (x : String) (rhs : Expr) (ctx ctx1 : Context)
        (xv xv2 av rv : TLAValue) (rc : Context),
      ctx.state.getVarRaw x = some (some xv) →
      ctx.state.getVarRaw (x ++ primeStr) = some (some av) →
      evalE ap (fuel + 1) rhs ctx = .ok (some [rc], ctx1) →
      rc.val = some rv →
      ctx1.state.getVarRaw x = some (some xv2) →
      ctx1.state.getVarRaw (x ++ primeStr) = some (some av) →
      evalE ap (fuel + 2) (.eqE (.primeE (.identE x)) rhs) ctx
        = .ok (some [ctx1.withVal (some (BoolValue (fpv av == fpv rv)))], ctx1))
    ∧ (∀ (fuel : Nat) (x : String) (rhs : Expr) (ctx ctx1 : Context) (av rv : TLAValue)
        (rc : Context),
      ctx.state.getVarRaw x = some (some av) →
      evalE false (fuel + 1) rhs ctx = .ok (some [rc], ctx1) →
      rc.val = some rv →
      ctx1.state.getVarRaw x = some (some av) →
      ctx1.primed = false →
      evalE false (fuel + 2) (.eqE (.identE x) rhs) ctx
        = .ok (some [ctx1.withVal (some (BoolValue (fpv av == fpv rv)))], ctx1))
    ∧ (∀ (ap : Bool) (fuel : Nat) (lhs rhs : Expr) (ctx : Context) (lc rc c1 c2 : Context)
        (lv rv : TLAValue),
      (isPrimedVar lhs ctx
        || (ctx.state.hasVar lhs.text && !(isPrimedVar lhs ctx) && !ap)) = false →
      evalE ap fuel lhs ctx.clone = .ok (some [lc], c1) →
      evalE ap fuel rhs ctx.clone = .ok (some [rc], c2) →
      lc.val = some lv → rc.val = some rv →
      evalE ap (fuel + 1) (.eqE lhs rhs) ctx
        = .ok (some [ctx.withVal (some (BoolValue (fpv lv == fpv rv)))], ctx)) := by
  refine ⟨?_, ?_, ?_, ?_, ?_⟩
  · intro ap fuel x rhs ctx xv rc ctxr hx hxp hrhs
    have e1 : evalE ap (fuel + 1) (.eqE (.primeE (.identE x)) rhs) ctx
        = evalEq (evalE ap fuel) ap (.primeE (.identE x)) rhs ctx := rfl
    have hpv : isPrimedVar (.primeE (.identE x)) ctx = true := by
      show (ctx.state.hasVar x && (ctx.state.getVarVal x).isSome) = true
      rw [hasVar_of_getVarRaw hx, getVarVal_eq_of_raw hx]
      rfl
    have hhv : ctx.state.hasVar (x ++ primeStr) = true := hasVar_of_getVarRaw hxp
    have hgv : ctx.state.getVarVal (x ++ primeStr) = none := by
      rw [getVarVal_eq_of_raw hxp]
      rfl
    rw [e1]
    unfold evalEq
    have htext : Expr.text (.primeE (.identE x)) = x ++ primeStr := rfl
    simp only [htext, hpv, hhv, hgv, Bool.true_or, if_pos, Option.isSome_none,
      Bool.and_false, Bool.false_eq_true, if_false, if_true, hrhs, exbind_ok, asCtxList]
  · intro fuel x rhs ctx rc ctxr hx hrhs
    have e1 : evalE false (fuel + 1) (.eqE (.identE x) rhs) ctx
        = evalEq (evalE false fuel) false (.identE x) rhs ctx := rfl
    have hpv : isPrimedVar (.identE x) ctx = false := rfl
    have hhv : ctx.state.hasVar x = true := hasVar_of_getVarRaw hx
    have hgv : ctx.state.getVarVal x = none := by
      rw [getVarVal_eq_of_raw hx]
      rfl
    rw [e1]
    unfold evalEq
    have htext : Expr.text (.identE x) = x := rfl
    simp only [htext, hpv, hhv, hgv, Bool.false_or, Bool.not_false, Bool.and_true,
      Option.isSome_none, Bool.and_false, Bool.false_eq_true, if_false, if_true,
      hrhs, exbind_ok, asCtxList]
  · intro ap fuel x rhs ctx ctx1 xv xv2 av rv rc hx hxp hrhs hrv h1x h1xp
    have e1 : evalE ap (fuel + 2) (.eqE (.primeE (.identE x)) rhs) ctx
        = evalEq (evalE ap (fuel + 1)) ap (.primeE (.identE x)) rhs ctx := rfl
    have hpv : isPrimedVar (.primeE (.identE x)) ctx = true := by
      show (ctx.state.hasVar x && (ctx.state.getVarVal x).isSome) = true
      rw [hasVar_of_getVarRaw hx, getVarVal_eq_of_raw hx]
      rfl
    have hpv1 : isPrimedVar (.primeE (.identE x)) ctx1 = true := by
      show (ctx1.state.hasVar x && (ctx1.state.getVarVal x).isSome) = true
      rw [hasVar_of_getVarRaw h1x, getVarVal_eq_of_raw h1x]
      rfl
    have hhv : ctx.state.hasVar (x ++ primeStr) = true := hasVar_of_getVarRaw hxp
    have hgv : ctx.state.getVarVal (x ++ primeStr) = some av := by
      rw [getVarVal_eq_of_raw hxp]
      rfl
    have htext : Expr.text (.primeE (.identE x)) = x ++ primeStr := rfl
    have hlhs : evalE ap (fuel + 1) (.primeE (.identE x)) ctx1
        = .ok (some [ctx1.withVal (some av)], ctx1) := by
      have e2 : evalE ap (fuel + 1) (.primeE (.identE x)) ctx1
          = (if isPrimedVar (.primeE (.identE x)) ctx1 then
              match ctx1.state.getVarRaw (Expr.text (.primeE (.identE x))) with
              | some (some v) => .ok (some [ctx1.withVal (some v)], ctx1)
              | some none => evalE ap fuel (.identE x) ctx1.withPrimed
              | none => .ok (some [ctx1.withVal none], ctx1)
            else evalE ap fuel (.identE x) ctx1.withPrimed) := rfl
      rw [e2, if_pos (by rw [hpv1]), htext, h1xp]
    rw [e1]
    unfold evalEq
    simp only [htext, hpv, hhv, hgv, Bool.true_or, if_true, Option.isSome_some,
      Bool.and_true, hrhs, exbind_ok, asCtxList, hlhs, firstContextVal,
      Context.withVal, fpOpt, hrv]
  · intro fuel x rhs ctx ctx1 av rv rc hx hrhs hrv h1x h1primed
    have e1 : evalE false (fuel + 2) (.eqE (.identE x) rhs) ctx
        = evalEq (evalE false (fuel + 1)) false (.identE x) rhs ctx := rfl
    have hpv : isPrimedVar (.identE x) ctx = false := rfl
    have hhv : ctx.state.hasVar x = true := hasVar_of_getVarRaw hx
    have hgv : ctx.state.getVarVal x = some av := by
      rw [getVarVal_eq_of_raw hx]
      rfl
    have htext : Expr.text (.identE x) = x := rfl
    have hlhs : evalE false (fuel + 1) (.identE x) ctx1
        = .ok (some [ctx1.withVal (some av)], ctx1) := by
      have e2 : evalE false (fuel + 1) (.identE x) ctx1
          = evalIdentifierRef (evalE false fuel) x ctx1 := rfl
      rw [e2]
      unfold evalIdentifierRef
      rw [hasVar_of_getVarRaw h1x, h1primed]
      simp [getVarVal_eq_of_raw h1x]
    rw [e1]
    unfold evalEq
    simp only [htext, hpv, hhv, hgv, Bool.false_or, Bool.not_false, Bool.and_true,
      Option.isSome_some, if_true, hrhs, exbind_ok, asCtxList, hlhs, firstContextVal,
      Context.withVal, fpOpt, hrv]
  · intro ap fuel lhs rhs ctx lc rc c1 c2 lv rv hcond hl hr hlv hrv
    have e1 : evalE ap (fuel + 1) (.eqE lhs rhs) ctx
        = evalEq (evalE ap fuel) ap lhs rhs ctx := rfl
    rw [e1]
    unfold evalEq
    simp only [hcond, Bool.false_eq_true, if_false, hl, hr, exbind_ok, asCtxList,
      fpOpt, hlv, hrv]

/-- A next-mode context from `x = 0` whose primed variable is already
bound to `5`. -/
def ctxPrimedAssigned : Context :=
  ⟨none, ⟨[("x", some (IntValue 0)), ("x" ++ primeStr, some (IntValue 5))]⟩, [], [], [], none, false⟩

/-- An init-mode context with `x` already assigned `0`. -/
def ctxX0Assigned : Context := ⟨none, stX0, [], [], [], none, false⟩

/-- Claim C2 witness: concrete instances of all five cases of
`evalEq_assignment_or_comparison`. -/
theorem evalEq_assignment_or_comparison_witness :
    evalE true 2 (.eqE (.primeE (.identE "x")) (.natE 1)) nextCtxX0
      = .ok (some [nextCtxX0.withValAndState (some (BoolValue true))
          (nextCtxX0.state.withVarVal ("x" ++ primeStr) (some (IntValue 1)))], nextCtxX0)
    ∧ evalE false 2 (.eqE (.identE "x") (.natE 7)) oneVarCtx
      = .ok (some [oneVarCtx.withValAndState (some (BoolValue true))
          (oneVarCtx.state.withVarVal "x" (some (IntValue 7)))], oneVarCtx)
    ∧ evalE true 2 (.eqE (.primeE (.identE "x")) (.natE 5)) ctxPrimedAssigned
      = .ok (some [ctxPrimedAssigned.withVal (some (BoolValue true))], ctxPrimedAssigned)
    ∧ evalE false 2 (.eqE (.identE "x") (.natE 3)) ctxX0Assigned
      = .ok (some [ctxX0Assigned.withVal (some (BoolValue false))], ctxX0Assigned)
    ∧ evalE false 2 (.eqE (.natE 1) (.natE 2)) emptyCtx
      = .ok (some [emptyCtx.withVal (some (BoolValue false))], emptyCtx) := by
  refine ⟨?_, ?_, ?_, ?_, ?_⟩
  · have h := evalEq_assignment_or_comparison.1 true 1 "x" (.natE 1) nextCtxX0 (IntValue 0)
      (nextCtxX0.clone.withVal (some (IntValue 1))) nextCtxX0.clone rfl rfl rfl
    simpa using h
  · have h := evalEq_assignment_or_comparison.2.1 1 "x" (.natE 7) oneVarCtx
      (oneVarCtx.clone.withVal (some (IntValue 7))) oneVarCtx.clone rfl rfl
    simpa using h
  · have h := evalEq_assignment_or_comparison.2.2.1 true 0 "x" (.natE 5) ctxPrimedAssigned
      ctxPrimedAssigned (IntValue 0) (IntValue 0) (IntValue 5) (IntValue 5)
      (ctxPrimedAssigned.withVal (some (IntValue 5))) rfl rfl rfl rfl rfl rfl
    simpa using h
  · have h := evalEq_assignment_or_comparison.2.2.2.1 0 "x" (.natE 3) ctxX0Assigned
      ctxX0Assigned (IntValue 0) (IntValue 3)
      (ctxX0Assigned.withVal (some (IntValue 3))) rfl rfl rfl rfl rfl
    simpa using h
  · have h := evalEq_assignment_or_comparison.2.2.2.2 false 1 (.natE 1) (.natE 2) emptyCtx
      (emptyCtx.clone.withVal (some (IntValue 1))) (emptyCtx.clone.withVal (some (IntValue 2)))
      emptyCtx.clone emptyCtx.clone (IntValue 1) (IntValue 2) rfl rfl rfl rfl rfl
    simpa using h

theorem charsLt_asymm : ∀ (a b : List Char), charsLt a b = true → charsLt b a = false := by
  intro a
  induction a with
  | nil =>
    intro b h
    cases b with
    | nil => simp [charsLt] at h
    | cons c cs => simp [charsLt]
  | cons c cs ih =>
    intro b h
    cases b with
    | nil => simp [charsLt] at h
    | cons d ds =>
      unfold charsLt at h ⊢
      rcases Nat.lt_trichotomy c.toNat d.toNat with h1 | h1 | h1
      · rw [if_neg (by omega), if_pos h1]
      · rw [if_neg (by omega), if_neg (by omega)] at h
        rw [if_neg (by omega), if_neg (by omega)]
        exact ih ds h
      · rw [if_neg (by omega), if_pos h1] at h
        exact absurd h (by simp)

theorem strLtB_asymm (a b : String) (h : strLtB a b = true) : strLtB b a = false :=
  charsLt_asymm a.data b.data h

theorem stableSortBy_of_chain {α : Type} (lt : α → α → Bool)
    (hasym : ∀ a b, lt a b = true → lt b a = false) :
    ∀ (l : List α), List.Chain' (fun a b => lt a b = true) l → stableSortBy lt l = l := by
  intro l
  induction l with
  | nil => intro _; rfl
  | cons x xs ih =>
    intro hch
    have hxs : stableSortBy lt xs = xs := ih hch.tail
    have e : stableSortBy lt (x :: xs) = insertStableBy lt x (stableSortBy lt xs) := rfl
    rw [e, hxs]
    cases xs with
    | nil => rfl
    | cons y ys =>
      have hxy : lt x y = true := (List.chain'_cons.mp hch).1
      unfold insertStableBy
      rw [hasym x y hxy]
      simp

theorem insertSortedInt_all_le (x : Int) : ∀ (acc : List Int), (∀ y ∈ acc, y ≤ x) →
    insertSortedInt x acc = acc ++ [x] := by
  intro acc
  induction acc with
  | nil => intro _; rfl
  | cons y ys ih =>
    intro h
    unfold insertSortedInt
    rw [if_pos (h y (List.mem_cons_self y ys))]
    rw [ih (fun z hz => h z (List.mem_cons_of_mem _ hz))]
    simp

theorem foldl_insertSortedInt : ∀ (l acc : List Int), List.Pairwise (· ≤ ·) (acc ++ l) →
    List.foldl (fun a x => insertSortedInt x a) acc l = acc ++ l := by
  intro l
  induction l with
  | nil => intro acc _; simp
  | cons x xs ih =>
    intro acc hp
    have hle : ∀ y ∈ acc, y ≤ x :=
      fun y hy => (List.pairwise_append.mp hp).2.2 y hy x (List.mem_cons_self x xs)
    show List.foldl (fun a x => insertSortedInt x a) (insertSortedInt x acc) xs = acc ++ x :: xs
    rw [insertSortedInt_all_le x acc hle]
    have h2 : List.Pairwise (· ≤ ·) ((acc ++ [x]) ++ xs) := by simpa using hp
    have := ih (acc ++ [x]) h2
    simpa using this

theorem sortInts_sorted (l : List Int) (hp : List.Pairwise (· ≤ ·) l) : sortInts l = l := by
  unfold sortInts
  simpa using foldl_insertSortedInt l [] (by simpa using hp)

theorem mapM_intValue_extract : ∀ (l : List Int),
    (l.map IntValue).mapM (fun v => match v with | IntValue n => some n | _ => none)
      = some l := by
  intro l
  induction l with
  | nil => rfl
  | cons x xs ih =>
    rw [List.map_cons, List.mapM_cons, ih]
    rfl

theorem find?_unique {α : Type} (p : α → Bool) : ∀ (l : List α) (a : α), a ∈ l → p a = true →
    (∀ b ∈ l, p b = true → b = a) → l.find? p = some a := by
  intro l
  induction l with
  | nil => intro a ha; cases ha
  | cons x xs ih =>
    intro a ha hp huniq
    by_cases hx : p x = true
    · have hxa : x = a := huniq x (List.mem_cons_self x xs) hx
      subst hxa
      rw [List.find?_cons_of_pos _ hx]
    · have ha' : a ∈ xs := by
        rcases List.mem_cons.mp ha with rfl | h
        · exact absurd hp hx
        · exact h
      rw [List.find?_cons_of_neg _ hx]
      exact ih a ha' hp (fun b hb => huniq b (List.mem_cons_of_mem _ hb))

theorem revIndexLookup_at (es dom : List TLAValue) (hlen : dom.length = es.length)
    (hnd : (es.map jsToString).Nodup) (i : Nat) (hi : i < es.length)
    (hid : i < dom.length) :
    revIndexLookup es dom (es[i]) = some (dom[i]) := by
  unfold revIndexLookup
  have hzi : i < (List.zip es dom).length := by
    rw [List.length_zip]
    omega
  have hfind : (List.zip es dom).reverse.find?
      (fun p => jsToString p.1 == jsToString (es[i]))
      = some (es[i], dom[i]) := by
    apply find?_unique
    · rw [List.mem_reverse]
      have hz : (List.zip es dom)[i] = (es[i], dom[i]) := List.getElem_zip
      exact hz ▸ List.getElem_mem hzi
    · simp
    · rintro ⟨b1, b2⟩ hb hpb
      rw [List.mem_reverse] at hb
      obtain ⟨j, hj, hjb⟩ := List.getElem_of_mem hb
      rw [List.getElem_zip] at hjb
      have hj2 : j < es.length := by
        rw [List.length_zip] at hj
        omega
      have hj3 : j < dom.length := by
        rw [List.length_zip] at hj
        omega
      have hb1 : es[j] = b1 := congrArg Prod.fst hjb
      have hb2 : dom[j] = b2 := congrArg Prod.snd hjb
      have hjs : jsToString (es[j]) = jsToString (es[i]) := by
        rw [hb1]
        exact eq_of_beq hpb
      have hji : j = i := by
        have hj4 : j < (es.map jsToString).length := by
          rw [List.length_map]
          omega
        have hi4 : i < (es.map jsToString).length := by
          rw [List.length_map]
          omega
        have hme : (es.map jsToString)[j] = (es.map jsToString)[i] := by
          rw [List.getElem_map, List.getElem_map]
          exact hjs
        exact (List.Nodup.getElem_inj_iff hnd).mp hme
      subst hji
      rw [← hb1, ← hb2]
  rw [hfind]
  rfl

theorem toTupleKey_at (es : List TLAValue) (hnd : (es.map jsToString).Nodup)
    (i : Nat) (hi : i < es.length) :
    toTupleKey es ((List.range es.length).map (fun (k : Nat) => IntValue ((k : Int) + 1))) (es[i])
      = toString ((i : Int) + 1) := by
  unfold toTupleKey
  rw [revIndexLookup_at es _ (by rw [List.length_map, List.length_range]) hnd i hi
    (by rw [List.length_map, List.length_range]; exact hi)]
  rw [List.getElem_map, List.getElem_range]

theorem strLtB_digit (k : Nat) (h1 : 1 ≤ k) (h2 : k ≤ 8) :
    strLtB (toString ((k : Int))) (toString ((k : Int) + 1)) = true := by
  interval_cases k <;> decide

/-- Claim C8 (amended): the `toFcnRcd`/`toTuple` round trip is the identity
— and hence preserves the fingerprint — for tuples of length at most 9
whose elements have pairwise-distinct string representations (the reverse
index of `toTuple` is keyed by stringified values, and its sort compares
the stringified integer keys as strings, which agrees with the numeric
order only for single-digit indices). -/
theorem tuple_toFcn_toTuple_fingerprint_distinct_short :
    ∀ (es : List TLAValue), es.length ≤ 9 → (es.map jsToString).Nodup →
      toTupleVal (toFcnRcd es) = .ok (TupleValue es)
      ∧ ∃ t, toTupleVal (toFcnRcd es) = .ok t ∧ fpv t = fpv (TupleValue es) := by
  intro es hlen hnd
  have hmain : toTupleVal (toFcnRcd es) = .ok (TupleValue es) := by
    have e1 : toTupleVal (toFcnRcd es)
        = toTupleJs ((List.range es.length).map (fun (k : Nat) => IntValue ((k : Int) + 1)))
            es := rfl
    rw [e1]
    unfold toTupleJs
    have hmm : ((List.range es.length).map (fun (k : Nat) => IntValue ((k : Int) + 1))).mapM
        (fun v => match v with | IntValue n => some n | _ => none)
        = some ((List.range es.length).map (fun (k : Nat) => ((k : Int) + 1))) := by
      have hcomp : ((List.range es.length).map (fun (k : Nat) => IntValue ((k : Int) + 1)))
          = ((List.range es.length).map (fun (k : Nat) => ((k : Int) + 1))).map IntValue := by
        rw [List.map_map]
        rfl
      rw [hcomp, mapM_intValue_extract]
    rw [hmm]
    have hlen2 : ((List.range es.length).map (fun (k : Nat) => IntValue ((k : Int) + 1))).length
        = es.length := by
      rw [List.length_map, List.length_range]
    have hsorted : sortInts ((List.range es.length).map (fun (k : Nat) => ((k : Int) + 1)))
        = (List.range es.length).map (fun (k : Nat) => ((k : Int) + 1)) := by
      apply sortInts_sorted
      exact (List.pairwise_lt_range es.length).map _ (fun a b hab => by omega)
    have hsortid : stableSortBy (fun a b =>
        strLtB (toTupleKey es ((List.range es.length).map
            (fun (k : Nat) => IntValue ((k : Int) + 1))) a)
          (toTupleKey es ((List.range es.length).map
            (fun (k : Nat) => IntValue ((k : Int) + 1))) b)) es = es := by
      apply stableSortBy_of_chain _ (fun a b h => strLtB_asymm _ _ h)
      rw [List.chain'_iff_get]
      intro i hi2
      have hi : i < es.length := by omega
      have hi1 : i + 1 < es.length := by omega
      simp only [List.get_eq_getElem]
      rw [toTupleKey_at es hnd i hi, toTupleKey_at es hnd (i + 1) hi1]
      have hc : ((i + 1 : Nat) : Int) = (i : Int) + 1 := by push_cast; ring
      have hd := strLtB_digit (i + 1) (by omega) (by omega)
      rw [hc] at hd
      rw [hc]
      exact hd
    simp only [hlen2, hsorted, if_pos, hsortid]
  exact ⟨hmain, TupleValue es, hmain, rfl⟩

/-- Claim C8 witness: the amended statement at the concrete distinct tuple
`<<1, 2>>`. -/
theorem tuple_toFcn_toTuple_fingerprint_distinct_short_witness :
    toTupleVal (toFcnRcd [IntValue 1, IntValue 2]) = .ok (TupleValue [IntValue 1, IntValue 2]) := by
  exact (tuple_toFcn_toTuple_fingerprint_distinct_short [IntValue 1, IntValue 2]
    (by decide) (by decide)).1
